import Mathlib

/-!
Verification of the `send-stream` file-system storage
(`src/file-system-storage.ts`), as a shallow embedding in Lean.

The embedding models:

* `decodeURIComponent` (percent-decoding with UTF-8 validation), used by
  `FileSystemStorage.parsePath` on each path segment;
* the WHATWG URL path canonicalization performed by
  `new URL('http://localhost' + path)` (dot-segment resolution,
  percent-encoding of the path/query encode sets, `\` treated as `/`);
* `FileSystemStorage.parsePath` (string and array branches, with the
  consecutive-slash / forbidden-character / ignore-pattern / trailing-slash
  checks in source order);
* `FileSystemStorage.open` (content-encoding variant probing, directory
  semantics, and the file-descriptor lifecycle, with an explicit event log
  of every `fsOpen` / `fsClose` performed);
* the constructor normalization of `contentEncodingMappings`;
* `FileSystemStorage.close` over a file-descriptor-table model of `fs.close`.

Regular-expression valued configuration (`ignorePattern`, mapping
`matcher`s) is modelled by abstract boolean tests / replacement functions,
since the claims quantify over arbitrary configured patterns.
-/

set_option maxHeartbeats 1000000

deriving instance DecidableEq for Except

namespace SendStream

/-! ## Characters, hex digits, UTF-8 -/

/-- Numeric value of a hex digit character, `none` otherwise. -/
def hexVal (c : Char) : Option Nat :=
  if 48 ≤ c.toNat ∧ c.toNat ≤ 57 then some (c.toNat - 48)
  else if 97 ≤ c.toNat ∧ c.toNat ≤ 102 then some (c.toNat - 87)
  else if 65 ≤ c.toNat ∧ c.toNat ≤ 70 then some (c.toNat - 55)
  else none

/-- Uppercase hex digit character for a value `< 16`. -/
def hexDigitChar (n : Nat) : Char :=
  if n < 10 then Char.ofNat (48 + n) else Char.ofNat (55 + n)

/-- UTF-8 byte sequence of a character (as used by percent-encoding). -/
def utf8Bytes (c : Char) : List Nat :=
  let n := c.toNat
  if n < 128 then [n]
  else if n < 2048 then [192 + n / 64, 128 + n % 64]
  else if n < 65536 then [224 + n / 4096, 128 + (n / 64) % 64, 128 + n % 64]
  else [240 + n / 262144, 128 + (n / 4096) % 64, 128 + (n / 64) % 64, 128 + n % 64]

/-- `%XX` triple (uppercase hex) for one byte. -/
def pctTriple (b : Nat) : List Char :=
  ['%', hexDigitChar (b / 16), hexDigitChar (b % 16)]

/-- A UTF-8 continuation byte. -/
def contByte (b : Nat) : Bool := 128 ≤ b && b ≤ 191

/-! ## decodeURIComponent

`decodeURIComponent` decodes every maximal run of `%XX` triples as UTF-8
bytes (throwing `URIError` on a malformed triple or invalid UTF-8) and
passes other characters through.  We model it in two passes: tokenize
`%XX` triples into bytes, then UTF-8-decode byte tokens. -/

/-- First pass: each `%XX` becomes a byte token, other characters are
literal tokens; fails when `%` is not followed by two hex digits. -/
def pctTokens : List Char → Option (List (Char ⊕ Nat))
  | [] => some []
  | c :: rest =>
    if c = '%' then
      match rest with
      | h1 :: h2 :: rest2 =>
        match hexVal h1, hexVal h2 with
        | some a, some b => (pctTokens rest2).map (Sum.inr (16 * a + b) :: ·)
        | _, _ => none
      | _ => none
    else (pctTokens rest).map (Sum.inl c :: ·)

/-- The character of a 2-byte UTF-8 sequence. -/
def utf8Char2 (b b2 : Nat) : Char := Char.ofNat ((b - 192) * 64 + (b2 - 128))

/-- The character of a 3-byte UTF-8 sequence. -/
def utf8Char3 (b b2 b3 : Nat) : Char :=
  Char.ofNat ((b - 224) * 4096 + (b2 - 128) * 64 + (b3 - 128))

/-- The character of a 4-byte UTF-8 sequence. -/
def utf8Char4 (b b2 b3 b4 : Nat) : Char :=
  Char.ofNat ((b - 240) * 262144 + (b2 - 128) * 4096 + (b3 - 128) * 64 + (b4 - 128))

/-- Validity condition for a 3-byte sequence (no overlong, no surrogate). -/
def cont3 (b b2 b3 : Nat) : Prop :=
  contByte b2 = true ∧ contByte b3 = true ∧ (¬ b = 224 ∨ 160 ≤ b2) ∧ (¬ b = 237 ∨ b2 ≤ 159)

/-- Validity condition for a 4-byte sequence (no overlong, max U+10FFFF). -/
def cont4 (b b2 b3 b4 : Nat) : Prop :=
  contByte b2 = true ∧ contByte b3 = true ∧ contByte b4 = true
    ∧ (¬ b = 240 ∨ 144 ≤ b2) ∧ (¬ b = 244 ∨ b2 ≤ 143)

instance (b b2 b3 : Nat) : Decidable (cont3 b b2 b3) := by unfold cont3; infer_instance
instance (b b2 b3 b4 : Nat) : Decidable (cont4 b b2 b3 b4) := by unfold cont4; infer_instance

/-- Second pass: UTF-8 decoding of byte tokens (with the checks JS applies:
continuation bytes, no overlong forms, no surrogates, max U+10FFFF);
a byte run must be self-delimited — a multi-byte sequence can only be
continued by further byte tokens.  The token list is matched deeply so
every branch is a plain conditional (a lead byte whose continuation bytes
are missing falls through to `none`, exactly as a nested match on the
remaining tokens would). -/
def decodeTokens : List (Char ⊕ Nat) → Option (List Char)
  | [] => some []
  | .inl c :: rest => (decodeTokens rest).map (c :: ·)
  | .inr b :: ([] : List (Char ⊕ Nat)) =>
    if b < 128 then (decodeTokens []).map (Char.ofNat b :: ·)
    else none
  | .inr b :: .inl c :: rest =>
    if b < 128 then (decodeTokens (.inl c :: rest)).map (Char.ofNat b :: ·)
    else none
  | .inr b :: .inr b2 :: ([] : List (Char ⊕ Nat)) =>
    if b < 128 then (decodeTokens [.inr b2]).map (Char.ofNat b :: ·)
    else if 194 ≤ b ∧ b ≤ 223 then
      if contByte b2 then (decodeTokens []).map (utf8Char2 b b2 :: ·) else none
    else none
  | .inr b :: .inr b2 :: .inl c :: rest =>
    if b < 128 then (decodeTokens (.inr b2 :: .inl c :: rest)).map (Char.ofNat b :: ·)
    else if 194 ≤ b ∧ b ≤ 223 then
      if contByte b2 then (decodeTokens (.inl c :: rest)).map (utf8Char2 b b2 :: ·) else none
    else none
  | .inr b :: .inr b2 :: .inr b3 :: ([] : List (Char ⊕ Nat)) =>
    if b < 128 then (decodeTokens [.inr b2, .inr b3]).map (Char.ofNat b :: ·)
    else if 194 ≤ b ∧ b ≤ 223 then
      if contByte b2 then (decodeTokens [.inr b3]).map (utf8Char2 b b2 :: ·) else none
    else if 224 ≤ b ∧ b ≤ 239 then
      if cont3 b b2 b3 then (decodeTokens []).map (utf8Char3 b b2 b3 :: ·) else none
    else none
  | .inr b :: .inr b2 :: .inr b3 :: .inl c :: rest =>
    if b < 128 then
      (decodeTokens (.inr b2 :: .inr b3 :: .inl c :: rest)).map (Char.ofNat b :: ·)
    else if 194 ≤ b ∧ b ≤ 223 then
      if contByte b2 then
        (decodeTokens (.inr b3 :: .inl c :: rest)).map (utf8Char2 b b2 :: ·)
      else none
    else if 224 ≤ b ∧ b ≤ 239 then
      if cont3 b b2 b3 then (decodeTokens (.inl c :: rest)).map (utf8Char3 b b2 b3 :: ·)
      else none
    else none
  | .inr b :: .inr b2 :: .inr b3 :: .inr b4 :: rest =>
    if b < 128 then
      (decodeTokens (.inr b2 :: .inr b3 :: .inr b4 :: rest)).map (Char.ofNat b :: ·)
    else if 194 ≤ b ∧ b ≤ 223 then
      if contByte b2 then
        (decodeTokens (.inr b3 :: .inr b4 :: rest)).map (utf8Char2 b b2 :: ·)
      else none
    else if 224 ≤ b ∧ b ≤ 239 then
      if cont3 b b2 b3 then (decodeTokens (.inr b4 :: rest)).map (utf8Char3 b b2 b3 :: ·)
      else none
    else if 240 ≤ b ∧ b ≤ 244 then
      if cont4 b b2 b3 b4 then (decodeTokens rest).map (utf8Char4 b b2 b3 b4 :: ·)
      else none
    else none

/-- `decodeURIComponent`, returning `none` where JS throws `URIError`. -/
def decodeURIComponent (s : String) : Option String :=
  match pctTokens s.data with
  | none => none
  | some ts =>
    match decodeTokens ts with
    | none => none
    | some cs => some (String.mk cs)

example : decodeURIComponent "foo%20bar" = some "foo bar" := by decide
example : decodeURIComponent "%2E" = some "." := by decide
example : decodeURIComponent "%99" = none := by decide
example : decodeURIComponent "a%C3" = none := by decide
example : decodeURIComponent "%C3%A9" = some "é" := by decide

/-! ## WHATWG URL path canonicalization

`parsePath` (string branch) runs `new URL('http://localhost' + path)` and
reads back `pathname` and `search`.  We model the URL parser's behaviour on
such inputs: stripping of tab/newline and of trailing C0-or-space, fragment
and query splitting, `\` treated as `/` (special scheme), dot-segment
resolution (including percent-encoded `%2e` forms, case-insensitively), and
percent-encoding with the path / special-query percent-encode sets. -/

/-- ASCII tab, LF or CR (removed anywhere in the input by the URL parser). -/
def tabOrNewline (c : Char) : Bool :=
  c = Char.ofNat 9 || c = Char.ofNat 10 || c = Char.ofNat 13

/-- C0 control or space (trimmed at the ends of the input by the URL parser;
the leading trim falls on the `http://localhost` prefix, so only the
trailing trim can touch the path). -/
def c0OrSpace (c : Char) : Bool := c.toNat ≤ 32

/-- Input preprocessing of the URL parser, restricted to the path suffix. -/
def urlPreprocess (cs : List Char) : List Char :=
  ((cs.filter (fun c => !tabOrNewline c)).reverse.dropWhile c0OrSpace).reverse

/-- The path percent-encode set: C0 controls, DEL and above, space, `"`,
`#`, `<`, `>`, `?`, backquote, and the curly braces. -/
def pathEncodeSet (c : Char) : Bool :=
  c.toNat ≤ 31 || 127 ≤ c.toNat ||
    [' ', '"', '#', '<', '>', '?', Char.ofNat 96, Char.ofNat 123, Char.ofNat 125].contains c

/-- The special-query percent-encode set: C0 controls, DEL and above,
space, `"`, `#`, `<`, `>`, and the apostrophe (http is a special scheme). -/
def queryEncodeSet (c : Char) : Bool :=
  c.toNat ≤ 31 || 127 ≤ c.toNat ||
    [' ', '"', '#', '<', '>', Char.ofNat 39].contains c

/-- Percent-encode one character against an encode set (existing `%` signs
are kept verbatim — `%` is in no encode set). -/
def encodeChar (inSet : Char → Bool) (c : Char) : List Char :=
  if inSet c then (utf8Bytes c).foldr (fun b acc => pctTriple b ++ acc) [] else [c]

/-- A single-dot path segment (`.` or `%2e`, case-insensitive). -/
def isSingleDotSeg (s : String) : Bool := [".", "%2e", "%2E"].contains s

/-- A double-dot path segment (two single-dot atoms). -/
def isDoubleDotSeg (s : String) : Bool :=
  ["..", ".%2e", ".%2E", "%2e.", "%2E.", "%2e%2e", "%2e%2E", "%2E%2e", "%2E%2E"].contains s

/-- Path-segment separator: `/`, and `\` for special schemes such as http. -/
def pathSep (c : Char) : Bool := c = '/' || c = '\\'

/-- `shorten url's path`: drop the last segment. -/
def shortenPath (segs : List String) : List String := segs.dropLast

/-- The URL parser's path state: accumulate a buffer, flush it at each
separator or at the end of input, resolving dot segments. -/
def buildSegs : List Char → List String → List Char → List String
  | [], segs, buf =>
    let seg := String.mk buf
    if isDoubleDotSeg seg then shortenPath segs ++ [""]
    else if isSingleDotSeg seg then segs ++ [""]
    else segs ++ [seg]
  | c :: rest, segs, buf =>
    if pathSep c then
      let seg := String.mk buf
      if isDoubleDotSeg seg then buildSegs rest (shortenPath segs) []
      else if isSingleDotSeg seg then buildSegs rest segs []
      else buildSegs rest (segs ++ [seg]) []
    else buildSegs rest segs (buf ++ encodeChar pathEncodeSet c)

/-- Split the (preprocessed) path input into raw path (with its leading
slash) and raw query, discarding any fragment. -/
def urlSplitRef (s : String) : List Char × List Char :=
  let cs := urlPreprocess s.data
  let beforeHash := cs.takeWhile (· ≠ '#')
  (beforeHash.takeWhile (· ≠ '?'), (beforeHash.dropWhile (· ≠ '?')).drop 1)

/-- The canonical path segment list of `new URL('http://localhost' + s)`.
`pathname` is `'/' ++ intercalate "/"` over this list, and (since no
segment contains a slash) `pathname.split('/')` is `"" ::` this list. -/
def urlPathSegments (s : String) : List String :=
  buildSegs ((urlSplitRef s).1.drop 1) [] []

/-- `pathname` of `new URL('http://localhost' + s)`. -/
def urlPathname (s : String) : String :=
  "/" ++ String.intercalate "/" (urlPathSegments s)

/-- `search` of `new URL('http://localhost' + s)` (empty when the query is
empty, even if a `?` was present). -/
def urlSearch (s : String) : String :=
  let q := (urlSplitRef s).2
  if q.isEmpty then ""
  else "?" ++ String.mk (q.foldr (fun c acc => encodeChar queryEncodeSet c ++ acc) [])

/-- `pathname + search`: the canonical ("normalized") form `parsePath`
compares the input against. -/
def urlNormalizedPath (s : String) : String := urlPathname s ++ urlSearch s

example : urlNormalizedPath "/users/../../etc/passwd" = "/etc/passwd" := by decide
example : urlNormalizedPath "//todo@txt" = "//todo@txt" := by decide
example : urlNormalizedPath "/foo%20bar" = "/foo%20bar" := by decide
example : urlNormalizedPath "/a b" = "/a%20b" := by decide
example : urlNormalizedPath "/a?x=1" = "/a?x=1" := by decide
example : urlNormalizedPath "/a#b" = "/a" := by decide
example : urlNormalizedPath "/a/%2E%2E/b" = "/b" := by decide
example : urlNormalizedPath "/d/" = "/d/" := by decide
example : urlPathSegments "/d/" = ["d", ""] := by decide

/-! ## Data model of the file-system storage -/

/-- Source `FilePath`: a URL-encoded path string or a path-parts array. -/
inductive FilePath where
  | str (s : String)
  | arr (parts : List String)

/-- The `onDirectory` option (`false | 'list-files' | 'serve-index'`). -/
inductive OnDirectory where
  | off
  | listFiles
  | serveIndex
deriving DecidableEq

/-- A compiled regular expression, abstracted to its observable behaviour:
a test, and replacement of the match given a replacement pattern (second
argument), as in `path.replace(matcher, replacementPattern)`. -/
structure RegexpMatcher where
  test : String → Bool
  replace : String → String → String

/-- Source `ContentEncodingPath`: one `(name, path)` encoding entry. -/
structure ContentEncodingPath where
  name : String
  path : String
deriving DecidableEq

/-- Source `ContentEncodingMapping`: a matcher plus encoding entries, as
configured by the user. -/
structure ContentEncodingMapping where
  matcher : RegexpMatcher
  encodings : List ContentEncodingPath

/-- Source `ContentEncodingPreference`: `{ path, order }`. -/
structure EncodingPreference where
  path : String
  order : Nat
deriving DecidableEq

/-- Source `RegexpContentEncodingMapping`: the constructor-normalized form
of a `ContentEncodingMapping`.  The JS `Map` is modelled as an association
list in insertion order. -/
structure RegexpContentEncodingMapping where
  matcher : RegexpMatcher
  encodingPreferences : List (String × EncodingPreference)
  identityEncodingPreference : EncodingPreference

/-- The `FileSystemStorage` configuration state after construction.
`ignorePattern = none` models `ignorePattern: false`; the default pattern
`/^\./` is `dotfilePattern` below. -/
structure FileSystemStorage where
  root : String
  contentEncodingMappings : Option (List RegexpContentEncodingMapping)
  ignorePattern : Option (String → Bool)
  onDirectory : OnDirectory

/-- The default ignore pattern `/^\./`. -/
def dotfilePattern (s : String) : Bool :=
  match s.data with
  | c :: _ => c = '.'
  | [] => false

/-! ## parsePath -/

/-- The error taxonomy of `parsePath` (each variant keeps the payload
fields the claims are about). -/
inductive ParseError where
  /-- Plain `StorageError`: string path not starting with `/`. -/
  | storageError (path : String)
  /-- `MalformedPathError`: `decodeURIComponent` threw on some segment. -/
  | malformedPath
  /-- `NotNormalizedError` with decoded parts and the canonical form. -/
  | notNormalized (pathParts : List String) (normalizedPath : String)
  /-- `InvalidPathError`: bad path-parts array. -/
  | invalidPath
  /-- `ConsecutiveSlashesError`. -/
  | consecutiveSlashes (pathParts : List String)
  /-- `ForbiddenCharacterError`. -/
  | forbiddenCharacter (pathParts : List String)
  /-- `IgnoredFileError`. -/
  | ignoredFile (pathParts : List String)
  /-- `TrailingSlashError` with the untrailed parts. -/
  | trailingSlash (pathParts : List String) (untrailedPathParts : List String)
deriving DecidableEq

/-- Result of `parsePath`. -/
structure ParsedPath where
  pathParts : List String
  haveTrailingSlash : Bool
deriving DecidableEq

/-- `path.startsWith('/')`. -/
def stringStartsWithSlash (s : String) : Bool :=
  match s.data with
  | c :: _ => c = '/'
  | [] => false

/-- The regex `/^\.\.?$/` used on path-parts arrays. -/
def isDotSegment (s : String) : Bool := s = "." || s = ".."

/-- The regex `FORBIDDEN_CHARACTERS = /[/?<>\\:*|":\u0000-\u001F\u0080-\u009F]/u`
tested against one segment (true iff some character matches the class). -/
def FORBIDDEN_CHARACTERS (s : String) : Bool :=
  s.data.any fun c =>
    ['/', '?', '<', '>', '\\', ':', '*', '|', '"'].contains c
    || c.toNat ≤ 31 || (128 ≤ c.toNat && c.toNat ≤ 159)

/-- First half of `parsePath` (lines 126-168): the string branch (URL
parse, per-segment decode, normalization check) and the array branch
(validity check).  In the string branch `pathname.split('/')` is
`"" :: urlPathSegments s`, since no canonical segment contains a slash. -/
def parseFront : FilePath → Except ParseError (List String)
  | .str s =>
    if !stringStartsWithSlash s then .error (.storageError s)
    else
      let rawParts := "" :: urlPathSegments s
      match rawParts.mapM decodeURIComponent with
      | none => .error .malformedPath
      | some decoded =>
        if s ≠ urlNormalizedPath s then .error (.notNormalized decoded (urlNormalizedPath s))
        else .ok decoded
  | .arr parts =>
    if parts.head? ≠ some "" || parts.any isDotSegment then .error .invalidPath
    else .ok parts

/-- Trailing-slash handling of `parsePath` (lines 204-220), driven by the
`onDirectory` option. -/
def applyTrailingSlash (storage : FileSystemStorage) (pathParts : List String)
    (haveTrailingSlash : Bool) : Except ParseError ParsedPath :=
  if haveTrailingSlash then
    let untrailedPathParts := pathParts.dropLast
    match storage.onDirectory with
    | .listFiles => .ok ⟨untrailedPathParts, true⟩
    | .serveIndex => .ok ⟨untrailedPathParts ++ ["index.html"], false⟩
    | .off => .error (.trailingSlash pathParts untrailedPathParts)
  else .ok ⟨pathParts, false⟩

/-- Forbidden-character and ignore-pattern checks (lines 186-202), then the
trailing-slash handling. -/
def checkFilters (storage : FileSystemStorage) (pathParts : List String)
    (haveTrailingSlash : Bool) : Except ParseError ParsedPath :=
  if pathParts.any FORBIDDEN_CHARACTERS then .error (.forbiddenCharacter pathParts)
  else
    match storage.ignorePattern with
    | some pat =>
      if pathParts.any pat then .error (.ignoredFile pathParts)
      else applyTrailingSlash storage pathParts haveTrailingSlash
    | none => applyTrailingSlash storage pathParts haveTrailingSlash

/-- The test `part === ''` used by `indexOf('', 1)`. -/
def isEmptySegment (s : String) : Bool := s = ""

/-- Second half of `parsePath` (lines 170-222): `pathParts.indexOf('', 1)`
detects a trailing slash or rejects consecutive slashes, then the filters
and the trailing-slash handling run. -/
def parseBack (storage : FileSystemStorage) (pathParts : List String) :
    Except ParseError ParsedPath :=
  match (pathParts.drop 1).findIdx? isEmptySegment with
  | some i =>
    if i + 1 ≠ pathParts.length - 1 then .error (.consecutiveSlashes pathParts)
    else checkFilters storage pathParts true
  | none => checkFilters storage pathParts false

/-- `FileSystemStorage.parsePath`. -/
def FileSystemStorage.parsePath (storage : FileSystemStorage) (path : FilePath) :
    Except ParseError ParsedPath :=
  match parseFront path with
  | .error e => .error e
  | .ok parts => parseBack storage parts

/-- A storage with the default options (ignore pattern `/^\./`,
`onDirectory: false`, no encoding mappings), used in concrete examples. -/
def defaultStorage : FileSystemStorage :=
  { root := "/fixtures"
  , contentEncodingMappings := none
  , ignorePattern := some dotfilePattern
  , onDirectory := .off }

example : defaultStorage.parsePath (.str "/todo.txt") = .ok ⟨["", "todo.txt"], false⟩ := by decide
example : defaultStorage.parsePath (.str "//todo@txt") =
    .error (.consecutiveSlashes ["", "", "todo@txt"]) := by decide
example : defaultStorage.parsePath (.str "/users/../../etc/passwd") =
    .error (.notNormalized ["", "etc", "passwd"] "/etc/passwd") := by decide
example : defaultStorage.parsePath (.str "/.hidden") =
    .error (.ignoredFile ["", ".hidden"]) := by decide
example : defaultStorage.parsePath (.arr ["", ".."]) = .error .invalidPath := by decide
example : defaultStorage.parsePath (.str "/foo%20bar") = .ok ⟨["", "foo bar"], false⟩ := by decide
example : defaultStorage.parsePath (.str "/a|b") =
    .error (.forbiddenCharacter ["", "a|b"]) := by decide
example : defaultStorage.parsePath (.str "/d/") =
    .error (.trailingSlash ["", "d", ""] ["", "d"]) := by decide

/-! ## Accept-Encoding selection

The `acceptEncodings` helper lives in the repository's `utils` module,
which is not part of the provided sources; it is modelled from the spec. -/

/-- Modelled from the spec: request headers as consumed by
`FileSystemStorage.open` — the already-parsed `accept-encoding` header as
an ordered list of `(lowercased token, q)` with q scaled to 0..1000
(`none` = header missing). The raw-header parsing lives in the missing
`utils` module. -/
structure StorageRequestHeaders where
  acceptEncoding : Option (List (String × Nat))

/-- Modelled from the spec: token match for a configured encoding name —
"Tokens are case-insensitive; `x-gzip` is an alias of `gzip`,
`x-compress` of `compress`" (§4.A). -/
def tokenMatches (name tok : String) : Bool :=
  tok = name || (name = "gzip" && tok = "x-gzip") || (name = "compress" && tok = "x-compress")

/-- Modelled from the spec: effective q of a configured encoding name —
"explicit token, alias, else `*`, else identity-default of 1, else 0"
(§4.A). -/
def effectiveQ (entries : List (String × Nat)) (name : String) : Nat :=
  match entries.find? (fun e => tokenMatches name e.1) with
  | some e => e.2
  | none =>
    match entries.find? (fun e => e.1 = "*") with
    | some e => e.2
    | none => if name = "identity" then 1000 else 0

/-- Insertion into a list sorted by descending q, ties by ascending
declared order. -/
def insertByPreference (x : String × EncodingPreference × Nat) :
    List (String × EncodingPreference × Nat) → List (String × EncodingPreference × Nat)
  | [] => [x]
  | y :: ys =>
    if x.2.2 > y.2.2 || (x.2.2 = y.2.2 && x.2.1.order < y.2.1.order) then x :: y :: ys
    else y :: insertByPreference x ys

/-- Modelled from the spec: `acceptEncodings` from the missing `utils`
module — "Discard entries with q=0. Break ties by configured
declared-order"; a missing header means identity only (§4.A).  Returns the
acceptable `(name, replacement path)` pairs in preference order. -/
def acceptEncodings (header : Option (List (String × Nat)))
    (encodingPreferences : List (String × EncodingPreference))
    (identityEncodingPreference : EncodingPreference) : List (String × String) :=
  match header with
  | none => [("identity", identityEncodingPreference.path)]
  | some entries =>
    let scored := encodingPreferences.filterMap fun np =>
      let q := effectiveQ entries np.1
      if q = 0 then none else some (np.1, np.2, q)
    (scored.foldr insertByPreference []).map fun np => (np.1, np.2.1.path)

/-! ## Constructor normalization of content-encoding mappings -/

/-- `Map.prototype.get` over the association-list model. -/
def mapGet (k : String) : List (String × EncodingPreference) → Option EncodingPreference
  | [] => none
  | kv :: rest => if kv.1 = k then some kv.2 else mapGet k rest

/-- `Map.prototype.set`: update in place when the key exists (keeping its
position), append otherwise. -/
def mapSet (k : String) (v : EncodingPreference) :
    List (String × EncodingPreference) → List (String × EncodingPreference)
  | [] => [(k, v)]
  | kv :: rest => if kv.1 = k then (kv.1, v) :: rest else kv :: mapSet k v rest

/-- Insertion of the entries `[name, {path, order}]` in declaration order,
`order` counting from `i`. -/
def buildPrefsAux : Nat → List ContentEncodingPath → List (String × EncodingPreference) →
    List (String × EncodingPreference)
  | _, [], m => m
  | i, e :: rest, m => buildPrefsAux (i + 1) rest (mapSet e.name ⟨e.path, i⟩ m)

/-- `new Map(encodingConfig.encodings.map(({name, path}, order) => [name, {path, order}]))`. -/
def buildEncodingPreferences (encodings : List ContentEncodingPath) :
    List (String × EncodingPreference) :=
  buildPrefsAux 0 encodings []

/-- Constructor normalization of one mapping (lines 83-96): synthesize an
`identity` preference `{path: '$&', order: encodings.length}` when absent. -/
def normalizeEncodingMapping (encodingConfig : ContentEncodingMapping) :
    RegexpContentEncodingMapping :=
  let encodingPreferences := buildEncodingPreferences encodingConfig.encodings
  match mapGet "identity" encodingPreferences with
  | some identityEncodingPreference =>
    ⟨encodingConfig.matcher, encodingPreferences, identityEncodingPreference⟩
  | none =>
    let identityEncodingPreference : EncodingPreference :=
      ⟨"$&", encodingConfig.encodings.length⟩
    ⟨encodingConfig.matcher, mapSet "identity" identityEncodingPreference encodingPreferences,
      identityEncodingPreference⟩

/-- Constructor normalization of the whole option. -/
def normalizeContentEncodingMappings (cfgs : List ContentEncodingMapping) :
    List RegexpContentEncodingMapping :=
  cfgs.map normalizeEncodingMapping

/-! ## open -/

/-- File stats, restricted to what `open` consumes. -/
structure Stats where
  isDirectory : Bool
  mtimeMs : Nat
  size : Nat
deriving DecidableEq

/-- The file system seen by `open`: `safeOpen` (`none` models any open
failure) and `fstat` (modelled as infallible). -/
structure FSEnv where
  openFile : String → Option Nat
  fstat : Nat → Stats

/-- One `fsOpen` / `fsClose` syscall performed by `open`, recorded in
order. -/
inductive FsEvent where
  | opened (fd : Nat)
  | closed (fd : Nat)
deriving DecidableEq

/-- `StorageInfo` as produced by `FileSystemStorage.open` (fields the
directory-listing return leaves out are `none`). -/
structure StorageInfo where
  pathParts : List String
  resolvedPath : String
  fd : Nat
  stats : Stats
  fileName : String
  mimeType : Option String := none
  mimeTypeCharset : Option String := none
  mtimeMs : Option Nat := none
  size : Option Nat := none
  vary : Option String := none
  contentEncoding : Option String := none
deriving DecidableEq

/-- Errors thrown by `open` (parse errors wrapped, plus the open-time
errors with the payloads the claims mention). -/
inductive OpenError where
  | parse (e : ParseError)
  | isDirectory (resolvedPath : String)
  | doesNotExist (resolvedPath : String)
  | trailingSlashNotDirectory (pathParts : List String) (untrailedPathParts : List String)
deriving DecidableEq

/-- Outcome of the encoding-probe loop (lines 296-327): a non-directory
hit, an `IsDirectoryError` raised with the descriptor still open, or
exhaustion of the candidates. -/
inductive TryResult where
  | found (name : String) (encodedPath : String) (fd : Nat) (stats : Stats)
  | isDirFd (fd : Nat)
  | exhausted
deriving DecidableEq

/-- The encoding-probe loop: for each acceptable `(name, replacement)` in
order, form the candidate path by regex replacement, try to open it, stat,
close-and-skip directories (raising on `identity`), stop at the first
non-directory. -/
def tryEncodings (env : FSEnv) (matcher : RegexpMatcher) (resolvedPath : String) :
    List (String × String) → TryResult × List FsEvent
  | [] => (.exhausted, [])
  | (name, replacement) :: rest =>
    let encodedPath := matcher.replace resolvedPath replacement
    match env.openFile encodedPath with
    | none => tryEncodings env matcher resolvedPath rest
    | some fd =>
      let stats := env.fstat fd
      if stats.isDirectory then
        if name = "identity" then (.isDirFd fd, [.opened fd])
        else
          let res := tryEncodings env matcher resolvedPath rest
          (res.1, .opened fd :: .closed fd :: res.2)
      else (.found name encodedPath fd stats, [.opened fd])

/-- `join(this.root, ...pathParts)` (POSIX, with the leading empty segment
and no dot segments in the parts). -/
def joinPath (root : String) (parts : List String) : String :=
  parts.foldl (fun acc p => if p = "" then acc else acc ++ "/" ++ p) root

/-- The mapping selection of lines 282-286: only without directory intent,
the first configured mapping whose matcher tests true on the resolved
path. -/
def selectedEncodingMapping (storage : FileSystemStorage) (resolvedPath : String)
    (haveTrailingSlash : Bool) : Option RegexpContentEncodingMapping :=
  if haveTrailingSlash then none
  else
    match storage.contentEncodingMappings with
    | some mappings => mappings.find? (fun m => m.matcher.test resolvedPath)
    | none => none

/-- JS `parts[parts.length - 1]` (parts is never empty after `parsePath`). -/
def lastPart (parts : List String) : String := parts.getLast?.getD ""

/-- The mapped branch of `open` (lines 287-335): run the encoding-probe
loop over the acceptable encodings; the `catch` block closes the live
descriptor of a thrown `IsDirectoryError`. -/
def openMapped (env : FSEnv) (requestHeaders : StorageRequestHeaders)
    (pathParts : List String) (resolvedPath : String)
    (mapping : RegexpContentEncodingMapping) :
    Except OpenError StorageInfo × List FsEvent :=
  match tryEncodings env mapping.matcher resolvedPath
      (acceptEncodings requestHeaders.acceptEncoding
        mapping.encodingPreferences mapping.identityEncodingPreference) with
  | (.found name encodedPath fd stats, evs) =>
    (.ok { pathParts, resolvedPath := encodedPath, fd, stats
         , fileName := lastPart pathParts
         , mtimeMs := some stats.mtimeMs, size := some stats.size
         , vary := some "Accept-Encoding", contentEncoding := some name }, evs)
  | (.isDirFd fd, evs) => (.error (.isDirectory resolvedPath), evs ++ [.closed fd])
  | (.exhausted, evs) => (.error (.doesNotExist resolvedPath), evs)

/-- The unmapped branch of `open` (lines 336-378): open the resolved path
directly, with the directory semantics of lines 348-377. -/
def openUnmapped (env : FSEnv) (pathParts : List String) (resolvedPath : String)
    (haveTrailingSlash : Bool) : Except OpenError StorageInfo × List FsEvent :=
  match env.openFile resolvedPath with
  | none => (.error (.doesNotExist resolvedPath), [])
  | some fd =>
    let stats := env.fstat fd
    if stats.isDirectory then
      if !haveTrailingSlash then
        (.error (.isDirectory resolvedPath), [.opened fd, .closed fd])
      else
        (.ok { pathParts, resolvedPath, fd, stats
             , fileName := (if pathParts.length > 1 then lastPart pathParts else "_") ++ ".html"
             , mimeType := some "text/html", mimeTypeCharset := some "UTF-8" },
          [.opened fd, .closed fd])
    else if haveTrailingSlash then
      (.error (.trailingSlashNotDirectory (pathParts ++ [""]) pathParts),
        [.opened fd, .closed fd])
    else
      (.ok { pathParts, resolvedPath, fd, stats
           , fileName := lastPart pathParts
           , mtimeMs := some stats.mtimeMs, size := some stats.size
           , vary := none, contentEncoding := some "identity" }, [.opened fd])

/-- `open` after a successful parse: test the resolved path against the
encoding map, then run the mapped or unmapped branch. -/
def openWithParsed (storage : FileSystemStorage) (env : FSEnv)
    (requestHeaders : StorageRequestHeaders) (parsed : ParsedPath) :
    Except OpenError StorageInfo × List FsEvent :=
  match selectedEncodingMapping storage (joinPath storage.root parsed.pathParts)
      parsed.haveTrailingSlash with
  | some mapping =>
    openMapped env requestHeaders parsed.pathParts
      (joinPath storage.root parsed.pathParts) mapping
  | none =>
    openUnmapped env parsed.pathParts (joinPath storage.root parsed.pathParts)
      parsed.haveTrailingSlash

/-- `FileSystemStorage.open`, returning the result together with the
ordered log of descriptor events it performed (the `catch` block's
`earlyClose` of a still-open descriptor included). -/
def FileSystemStorage.open (storage : FileSystemStorage) (env : FSEnv)
    (requestHeaders : StorageRequestHeaders) (path : FilePath) :
    Except OpenError StorageInfo × List FsEvent :=
  match storage.parsePath path with
  | .error e => (.error (.parse e), [])
  | .ok parsed => openWithParsed storage env requestHeaders parsed

/-! ## close -/

/-- The kernel's file-descriptor table, for the `fs.close` model. -/
structure FdState where
  openFds : List Nat
deriving DecidableEq

/-- `fs.close` semantics: closing an open descriptor removes it; closing a
descriptor that is not open fails with `EBADF`. -/
def fsClose (fd : Nat) (s : FdState) : Except String FdState :=
  if s.openFds.contains fd then .ok ⟨s.openFds.erase fd⟩ else .error "EBADF"

/-- `FileSystemStorage.close`: unconditionally calls
`fsClose(storageInfo.attachedData.fd)`. -/
def FileSystemStorage.close (_storage : FileSystemStorage) (storageInfo : StorageInfo)
    (s : FdState) : Except String FdState :=
  fsClose storageInfo.fd s

/-! ## Helper lemmas -/

theorem findIdx_append_empty (l : List String) (h : "" ∉ l) (i : Nat) :
    List.findIdx? isEmptySegment (l ++ [""]) i = some (i + l.length) := by
  induction l generalizing i with
  | nil => simp [List.findIdx?_cons, isEmptySegment]
  | cons x xs ih =>
    have hx : x ≠ "" := fun e => h (e ▸ List.mem_cons_self x xs)
    rw [List.cons_append, List.findIdx?_cons, if_neg (by simp [isEmptySegment, hx]),
      ih (fun hm => h (List.mem_cons_of_mem x hm))]
    congr 1
    simp only [List.length_cons]
    omega

/-- `parsePath` on a reference whose parsed parts end in exactly one
trailing empty segment reaches the trailing-slash handling with
`haveTrailingSlash` detected. -/
theorem parseBack_trailing (storage : FileSystemStorage) (rest : List String)
    (hmid : "" ∉ rest) :
    parseBack storage ("" :: rest ++ [""]) =
      checkFilters storage ("" :: rest ++ [""]) true := by
  have hidx : List.findIdx? isEmptySegment ((("" :: rest ++ [""]).drop 1)) 0
      = some rest.length := by
    rw [show (("" :: rest ++ [""]).drop 1) = rest ++ [""] from by simp]
    simpa using findIdx_append_empty rest hmid 0
  unfold parseBack
  rw [hidx]
  show (if rest.length + 1 ≠ ("" :: rest ++ [""]).length - 1
      then Except.error (ParseError.consecutiveSlashes ("" :: rest ++ [""]))
      else checkFilters storage ("" :: rest ++ [""]) true)
    = checkFilters storage ("" :: rest ++ [""]) true
  rw [if_neg (show ¬(rest.length + 1 ≠ ("" :: rest ++ [""]).length - 1) from by simp)]

/-! ## C5: trailing-slash handling -/

/-- **C5** — For every parsed reference ending in exactly one trailing
empty segment (and passing the forbidden-character and ignore checks),
`parsePath` behaves by the `onDirectory` option: `off` throws
`TrailingSlashError` carrying the untrailed parts, `list-files` drops the
trailing empty segment and keeps directory intent, `serve-index` replaces
it with `index.html` and clears directory intent. -/
theorem parsePath_trailingSlash_onDirectory (storage : FileSystemStorage)
    (p : FilePath) (rest : List String)
    (hfront : parseFront p = .ok ("" :: rest ++ [""]))
    (hmid : "" ∉ rest)
    (hforb : ("" :: rest ++ [""]).any FORBIDDEN_CHARACTERS = false)
    (hign : ∀ pat, storage.ignorePattern = some pat → ("" :: rest ++ [""]).any pat = false) :
    (storage.onDirectory = .off →
      storage.parsePath p = .error (.trailingSlash ("" :: rest ++ [""]) ("" :: rest))) ∧
    (storage.onDirectory = .listFiles →
      storage.parsePath p = .ok ⟨"" :: rest, true⟩) ∧
    (storage.onDirectory = .serveIndex →
      storage.parsePath p = .ok ⟨("" :: rest) ++ ["index.html"], false⟩) := by
  have hback : storage.parsePath p = checkFilters storage ("" :: rest ++ [""]) true := by
    unfold FileSystemStorage.parsePath
    rw [hfront]
    exact parseBack_trailing storage rest hmid
  have huntrail : ("" :: (rest ++ [""])).dropLast = "" :: rest := by
    rw [← List.cons_append]
    exact List.dropLast_concat
  have hfilters : checkFilters storage ("" :: rest ++ [""]) true
      = applyTrailingSlash storage ("" :: rest ++ [""]) true := by
    unfold checkFilters
    rw [hforb]
    simp only [Bool.false_eq_true, if_false]
    cases hpat : storage.ignorePattern with
    | none => rfl
    | some pat =>
      show (if ("" :: rest ++ [""]).any pat = true
          then Except.error (ParseError.ignoredFile ("" :: rest ++ [""]))
          else applyTrailingSlash storage ("" :: rest ++ [""]) true)
        = applyTrailingSlash storage ("" :: rest ++ [""]) true
      rw [hign pat hpat]
      simp
  have hmain : storage.parsePath p = applyTrailingSlash storage ("" :: rest ++ [""]) true :=
    hback.trans hfilters
  refine ⟨fun hod => ?_, fun hod => ?_, fun hod => ?_⟩ <;>
    · rw [hmain]
      unfold applyTrailingSlash
      simp [hod, huntrail]

/-- **C5 witness** — concrete instantiation on the reference `/d/` for all
three `onDirectory` modes. -/
theorem parsePath_trailingSlash_onDirectory_witness :
    ({ defaultStorage with onDirectory := .off }.parsePath (.str "/d/")
      = .error (.trailingSlash ["", "d", ""] ["", "d"])) ∧
    ({ defaultStorage with onDirectory := .listFiles }.parsePath (.str "/d/")
      = .ok ⟨["", "d"], true⟩) ∧
    ({ defaultStorage with onDirectory := .serveIndex }.parsePath (.str "/d/")
      = .ok ⟨["", "d", "index.html"], false⟩) := by
  refine ⟨?_, ?_, ?_⟩
  · exact (parsePath_trailingSlash_onDirectory _ (.str "/d/") ["d"] (by decide)
      (by decide) (by decide) (by intro pat hpat; cases hpat; decide)).1 rfl
  · exact (parsePath_trailingSlash_onDirectory _ (.str "/d/") ["d"] (by decide)
      (by decide) (by decide) (by intro pat hpat; cases hpat; decide)).2.1 rfl
  · exact (parsePath_trailingSlash_onDirectory _ (.str "/d/") ["d"] (by decide)
      (by decide) (by decide) (by intro pat hpat; cases hpat; decide)).2.2 rfl

/-! ## C4: normalization rejection -/

/-- **C4** — For every string reference starting with `/`: if
percent-decoding any segment fails, `parsePath` rejects with
`MalformedPathError`; if decoding succeeds but the URL-canonical form
(pathname plus search) differs from the input, it rejects with
`NotNormalizedError` whose `normalizedPath` field is that canonical
form. -/
theorem parseFront_str_eq (s : String) (h : stringStartsWithSlash s = true) :
    parseFront (.str s) =
      match ("" :: urlPathSegments s).mapM decodeURIComponent with
      | none => .error .malformedPath
      | some decoded =>
        if s ≠ urlNormalizedPath s then .error (.notNormalized decoded (urlNormalizedPath s))
        else .ok decoded := by
  unfold parseFront
  simp only [h, Bool.not_true, Bool.false_eq_true, if_false]

theorem parsePath_normalization_rejection (storage : FileSystemStorage) (s : String)
    (h : stringStartsWithSlash s = true) :
    (("" :: urlPathSegments s).mapM decodeURIComponent = none →
      storage.parsePath (.str s) = .error .malformedPath) ∧
    (∀ decoded, ("" :: urlPathSegments s).mapM decodeURIComponent = some decoded →
      s ≠ urlNormalizedPath s →
      storage.parsePath (.str s) = .error (.notNormalized decoded (urlNormalizedPath s))) := by
  constructor
  · intro hdec
    unfold FileSystemStorage.parsePath
    rw [parseFront_str_eq s h, hdec]
  · intro decoded hdec hne
    unfold FileSystemStorage.parsePath
    rw [parseFront_str_eq s h, hdec]
    show (match (if s ≠ urlNormalizedPath s
        then Except.error (ParseError.notNormalized decoded (urlNormalizedPath s))
        else Except.ok decoded) with
      | Except.error e => Except.error e
      | Except.ok parts => parseBack storage parts)
      = Except.error (ParseError.notNormalized decoded (urlNormalizedPath s))
    rw [if_pos hne]

/-- **C4 witness** — the spec's example `/users/../../etc/passwd` yields
`NotNormalizedError` with canonical form `/etc/passwd`; `/%` (undecodable
segment) yields `MalformedPathError`. -/
theorem parsePath_normalization_rejection_witness :
    defaultStorage.parsePath (.str "/users/../../etc/passwd")
      = .error (.notNormalized ["", "etc", "passwd"] "/etc/passwd") ∧
    defaultStorage.parsePath (.str "/%") = .error .malformedPath := by
  constructor
  · have := (parsePath_normalization_rejection defaultStorage "/users/../../etc/passwd"
      (by decide)).2 ["", "etc", "passwd"] (by decide) (by decide)
    simpa using this
  · exact (parsePath_normalization_rejection defaultStorage "/%" (by decide)).1 (by decide)

/-! ## C8: consecutive-slash rejection -/

/-- Recognizer for the `ConsecutiveSlashes` error kind. -/
def isConsecutiveSlashesError : Except ParseError ParsedPath → Bool
  | .error (.consecutiveSlashes _) => true
  | _ => false

/-- **C8 counterexample** — the array reference `['', '..', '', 'a']` has
an empty segment after the first element and before the last, yet
`parsePath` throws `InvalidPathError` (the array-validity check precedes
the consecutive-slash check), not `ConsecutiveSlashesError`. -/
theorem parsePath_consecutiveSlashes_counterexample :
    defaultStorage.parsePath (.arr ["", "..", "", "a"]) = .error .invalidPath ∧
    isConsecutiveSlashesError (defaultStorage.parsePath (.arr ["", "..", "", "a"])) = false := by
  decide

theorem findIdx_le_of_get (p : String → Bool) (l : List String) (k : Nat) (x : String)
    (hk : l[k]? = some x) (hx : p x = true) (i : Nat) :
    ∃ m, List.findIdx? p l i = some m ∧ m ≤ i + k := by

  induction l generalizing k i with
  | nil => simp at hk
  | cons y ys ih =>
    rw [List.findIdx?_cons]
    by_cases hpy : p y = true
    · exact ⟨i, by rw [if_pos hpy], by omega⟩
    · cases k with
      | zero =>
        simp only [List.getElem?_cons_zero, Option.some_inj] at hk
        exact absurd (hk ▸ hx) hpy
      | succ k2 =>
        rw [if_neg hpy]
        obtain ⟨m, hm, hle⟩ := ih k2 (by simpa using hk) (i + 1)
        exact ⟨m, hm, by omega⟩

/-- **C8 amended** — For every reference that passes the checks preceding
the slash analysis (string form: starts with `/`, decodes, normalized;
array form: leading `''`, no dot segments — i.e. `parseFront` succeeds),
if the parts contain an empty segment after the first position and before
the last, `parsePath` throws `ConsecutiveSlashesError`. -/
theorem parsePath_consecutiveSlashes_amended (storage : FileSystemStorage) (p : FilePath)
    (parts : List String) (j : Nat)
    (hfront : parseFront p = .ok parts)
    (hj1 : 1 ≤ j) (hj2 : j < parts.length - 1) (hemp : parts[j]? = some "") :
    storage.parsePath p = .error (.consecutiveSlashes parts) := by
  have hdrop : (parts.drop 1)[j - 1]? = some "" := by
    rw [List.getElem?_drop]
    rw [show 1 + (j - 1) = j from by omega]
    exact hemp
  obtain ⟨m, hm, hle⟩ := findIdx_le_of_get isEmptySegment (parts.drop 1) (j - 1) ""
    hdrop (by decide) 0
  unfold FileSystemStorage.parsePath
  rw [hfront]
  show parseBack storage parts = Except.error (ParseError.consecutiveSlashes parts)
  unfold parseBack
  rw [hm]
  show (if m + 1 ≠ parts.length - 1
      then Except.error (ParseError.consecutiveSlashes parts)
      else checkFilters storage parts true)
    = Except.error (ParseError.consecutiveSlashes parts)
  rw [if_pos (by omega)]

/-- **C8 amended witness** — the spec's example `//todo@txt` (string form,
normalized, mid empty segment) is rejected with `ConsecutiveSlashesError`. -/
theorem parsePath_consecutiveSlashes_amended_witness :
    defaultStorage.parsePath (.str "//todo@txt")
      = .error (.consecutiveSlashes ["", "", "todo@txt"]) :=
  parsePath_consecutiveSlashes_amended defaultStorage (.str "//todo@txt")
    ["", "", "todo@txt"] 1 (by decide) (by decide) (by decide) (by decide)

/-! ## C9: identity-preference synthesis -/

theorem mapGet_mapSet (k k2 : String) (v : EncodingPreference)
    (m : List (String × EncodingPreference)) :
    mapGet k (mapSet k2 v m) = if k2 = k then some v else mapGet k m := by
  induction m with
  | nil =>
    by_cases h : k2 = k <;> simp [mapSet, mapGet, h]
  | cons kv rest ih =>
    by_cases h2 : kv.1 = k2
    · by_cases hk : k2 = k
      · simp [mapSet, mapGet, h2, hk, h2.trans hk]
      · have hkv : kv.1 ≠ k := fun e => hk (h2.symm.trans e)
        simp [mapSet, mapGet, h2, hk, hkv]
    · by_cases hkv : kv.1 = k
      · have hk : ¬ k2 = k := fun e => h2 (hkv.trans e.symm)
        have hk2 : ¬ k = k2 := fun e => h2 (hkv.trans e)
        simp [mapSet, mapGet, h2, hkv, hk, hk2]
      · simp [mapSet, mapGet, h2, hkv, ih]

theorem mapGet_none_of_not_key (k : String) (m : List (String × EncodingPreference))
    (h : ∀ kv ∈ m, kv.1 ≠ k) : mapGet k m = none := by
  induction m with
  | nil => rfl
  | cons kv rest ih =>
    simp only [mapGet, if_neg (h kv (List.mem_cons_self kv rest))]
    exact ih fun kv2 hm => h kv2 (List.mem_cons_of_mem kv hm)

theorem mapSet_append_of_no_key (k : String) (v : EncodingPreference)
    (m : List (String × EncodingPreference)) (h : mapGet k m = none) :
    mapSet k v m = m ++ [(k, v)] := by
  induction m with
  | nil => rfl
  | cons kv rest ih =>
    simp only [mapGet] at h
    by_cases hk : kv.1 = k
    · rw [if_pos hk] at h; exact absurd h (by simp)
    · rw [if_neg hk] at h
      simp [mapSet, hk, ih h]

theorem buildPrefsAux_no_key (k : String) (encs : List ContentEncodingPath)
    (h : ∀ e ∈ encs, e.name ≠ k) (i : Nat) (m : List (String × EncodingPreference)) :
    mapGet k (buildPrefsAux i encs m) = mapGet k m := by
  induction encs generalizing i m with
  | nil => rfl
  | cons e rest ih =>
    rw [buildPrefsAux, ih (fun e2 hm => h e2 (List.mem_cons_of_mem e hm)), mapGet_mapSet,
      if_neg (h e (List.mem_cons_self e rest))]

/-- The entries of the preference map in declaration order, orders counted
from `i` (the shape `new Map` takes when the declared names are distinct). -/
def prefEntriesFrom : Nat → List ContentEncodingPath → List (String × EncodingPreference)
  | _, [] => []
  | i, e :: rest => (e.name, ⟨e.path, i⟩) :: prefEntriesFrom (i + 1) rest

theorem buildPrefsAux_nodup (encs : List ContentEncodingPath)
    (hnd : (encs.map (·.name)).Nodup) :
    ∀ (i : Nat) (m : List (String × EncodingPreference)),
      (∀ e ∈ encs, ∀ kv ∈ m, kv.1 ≠ e.name) →
      buildPrefsAux i encs m = m ++ prefEntriesFrom i encs := by
  induction encs with
  | nil => intro i m _; simp [buildPrefsAux, prefEntriesFrom]
  | cons e rest ih =>
    intro i m hdisj
    have hset : mapSet e.name ⟨e.path, i⟩ m = m ++ [(e.name, ⟨e.path, i⟩)] :=
      mapSet_append_of_no_key _ _ _
        (mapGet_none_of_not_key _ _ (fun kv hkv => hdisj e (List.mem_cons_self e rest) kv hkv))
    have hrest : buildPrefsAux (i + 1) rest (m ++ [(e.name, ⟨e.path, i⟩)])
        = (m ++ [(e.name, ⟨e.path, i⟩)]) ++ prefEntriesFrom (i + 1) rest := by
      refine ih (by simpa using hnd.of_cons) (i + 1) _ ?_
      intro e2 he2 kv hkv
      rcases List.mem_append.mp hkv with hkv | hkv
      · exact hdisj e2 (List.mem_cons_of_mem e he2) kv hkv
      · simp only [List.mem_singleton] at hkv
        subst hkv
        have hnot : e.name ∉ rest.map (·.name) := by
          simpa using (List.nodup_cons.mp hnd).1
        intro he
        have he2name : e.name = e2.name := he
        exact hnot (by rw [he2name]; exact List.mem_map_of_mem (·.name) he2)
    rw [buildPrefsAux, hset, hrest]
    simp [prefEntriesFrom]

theorem mapGet_prefEntriesFrom (encs : List ContentEncodingPath)
    (hnd : (encs.map (·.name)).Nodup) (j : Nat) (e : ContentEncodingPath)
    (hj : encs[j]? = some e) (i : Nat) :
    mapGet e.name (prefEntriesFrom i encs) = some ⟨e.path, i + j⟩ := by
  induction encs generalizing i j with
  | nil => simp at hj
  | cons f rest ih =>
    cases j with
    | zero =>
      simp only [List.getElem?_cons_zero, Option.some_inj] at hj
      subst hj
      simp [prefEntriesFrom, mapGet]
    | succ j2 =>
      simp only [List.getElem?_cons_succ] at hj
      have hmem : e.name ∈ rest.map (·.name) :=
        List.mem_map_of_mem (·.name) (List.getElem?_mem hj)
      have hfe : f.name ≠ e.name := by
        intro he
        apply (List.nodup_cons.mp hnd).1
        show f.name ∈ List.map (fun x => x.name) rest
        rw [he]
        exact hmem
      simp only [prefEntriesFrom, mapGet, if_neg hfe,
        ih (by simpa using hnd.of_cons) j2 hj (i + 1)]
      have harith : i + 1 + j2 = i + (j2 + 1) := by omega
      rw [harith]

/-- **C9** — Constructor normalization of a content-encoding mapping:
when no encoding named `identity` is declared, the preference map gains an
`identity` entry with replacement pattern `$&` and order equal to the
number of declared encodings (appended after them), and that entry is the
`identityEncodingPreference`; when `identity` is declared (names distinct),
the map is exactly the declared entries with their declared orders and the
`identity` entry keeps its declared replacement and position. -/
theorem constructor_identity_preference (cfg : ContentEncodingMapping) :
    ((∀ e ∈ cfg.encodings, e.name ≠ "identity") →
      (normalizeEncodingMapping cfg).encodingPreferences
        = buildEncodingPreferences cfg.encodings
            ++ [("identity", ⟨"$&", cfg.encodings.length⟩)]
      ∧ (normalizeEncodingMapping cfg).identityEncodingPreference
        = ⟨"$&", cfg.encodings.length⟩
      ∧ mapGet "identity" (normalizeEncodingMapping cfg).encodingPreferences
        = some ⟨"$&", cfg.encodings.length⟩) ∧
    (∀ (j : Nat) (e : ContentEncodingPath), cfg.encodings[j]? = some e →
      e.name = "identity" → (cfg.encodings.map (·.name)).Nodup →
      (normalizeEncodingMapping cfg).encodingPreferences = prefEntriesFrom 0 cfg.encodings
      ∧ (normalizeEncodingMapping cfg).identityEncodingPreference = ⟨e.path, j⟩
      ∧ mapGet "identity" (normalizeEncodingMapping cfg).encodingPreferences
        = some ⟨e.path, j⟩) := by
  have heq : normalizeEncodingMapping cfg =
      match mapGet "identity" (buildEncodingPreferences cfg.encodings) with
      | some ip =>
        ⟨cfg.matcher, buildEncodingPreferences cfg.encodings, ip⟩
      | none =>
        ⟨cfg.matcher,
          mapSet "identity" ⟨"$&", cfg.encodings.length⟩ (buildEncodingPreferences cfg.encodings),
          ⟨"$&", cfg.encodings.length⟩⟩ := rfl
  constructor
  · intro habs
    have hnone : mapGet "identity" (buildEncodingPreferences cfg.encodings) = none := by
      rw [buildEncodingPreferences, buildPrefsAux_no_key "identity" cfg.encodings habs 0 []]
      rfl
    rw [heq, hnone]
    refine ⟨?_, rfl, ?_⟩
    · exact mapSet_append_of_no_key _ _ _ hnone
    · show mapGet "identity"
        (mapSet "identity" ⟨"$&", cfg.encodings.length⟩ (buildEncodingPreferences cfg.encodings))
        = some ⟨"$&", cfg.encodings.length⟩
      rw [mapGet_mapSet, if_pos rfl]
  · intro j e hj hname hnd
    have hbuild : buildEncodingPreferences cfg.encodings = prefEntriesFrom 0 cfg.encodings := by
      rw [buildEncodingPreferences, buildPrefsAux_nodup cfg.encodings hnd 0 [] (by simp)]
      rfl
    have hget : mapGet "identity" (buildEncodingPreferences cfg.encodings)
        = some ⟨e.path, j⟩ := by
      rw [hbuild, ← hname]
      simpa using mapGet_prefEntriesFrom cfg.encodings hnd j e hj 0
    rw [heq, hget]
    exact ⟨hbuild, rfl, hget⟩

/-- **C9 witness** — concrete instantiations: a mapping declaring only
`br` and `gzip` gets a synthesized `identity → ($&, 2)` entry; a mapping
declaring `gzip` then `identity → custom` keeps it at position 1. -/
theorem constructor_identity_preference_witness :
    (normalizeEncodingMapping
        ⟨⟨fun _ => true, fun s _ => s⟩, [⟨"br", "$1.br"⟩, ⟨"gzip", "$1.gz"⟩]⟩).encodingPreferences
      = [("br", ⟨"$1.br", 0⟩), ("gzip", ⟨"$1.gz", 1⟩), ("identity", ⟨"$&", 2⟩)] ∧
    (normalizeEncodingMapping
        ⟨⟨fun _ => true, fun s _ => s⟩, [⟨"gzip", "$1.gz"⟩, ⟨"identity", "custom"⟩]⟩).identityEncodingPreference
      = ⟨"custom", 1⟩ := by
  constructor
  · have h := (constructor_identity_preference
      ⟨⟨fun _ => true, fun s _ => s⟩, [⟨"br", "$1.br"⟩, ⟨"gzip", "$1.gz"⟩]⟩).1
      (by intro e he; fin_cases he <;> decide)
    rw [h.1]
    decide
  · exact ((constructor_identity_preference
      ⟨⟨fun _ => true, fun s _ => s⟩, [⟨"gzip", "$1.gz"⟩, ⟨"identity", "custom"⟩]⟩).2
      1 ⟨"identity", "custom"⟩ (by decide) (by decide) (by decide)).2.1

/-! ## C2: open-failure atomicity -/

/-- Number of `fsOpen` calls returning descriptor `n` in an event log. -/
def countOpened (n : Nat) : List FsEvent → Nat
  | [] => 0
  | .opened m :: rest => (if m = n then 1 else 0) + countOpened n rest
  | .closed _ :: rest => countOpened n rest

/-- Number of `fsClose` calls on descriptor `n` in an event log. -/
def countClosed (n : Nat) : List FsEvent → Nat
  | [] => 0
  | .opened _ :: rest => countClosed n rest
  | .closed m :: rest => (if m = n then 1 else 0) + countClosed n rest

theorem countOpened_append (n : Nat) (a b : List FsEvent) :
    countOpened n (a ++ b) = countOpened n a + countOpened n b := by
  induction a with
  | nil => simp [countOpened]
  | cons e rest ih => cases e <;> simp [countOpened, ih] <;> omega

theorem countClosed_append (n : Nat) (a b : List FsEvent) :
    countClosed n (a ++ b) = countClosed n a + countClosed n b := by
  induction a with
  | nil => simp [countClosed]
  | cons e rest ih => cases e <;> simp [countClosed, ih] <;> omega

/-- The descriptor still open when the probe loop stops, if any. -/
def liveFd : TryResult → Option Nat
  | .found _ _ fd _ => some fd
  | .isDirFd fd => some fd
  | .exhausted => none

/-- Loop invariant of the encoding probe: every descriptor it opened is
closed in its own event log, except the one it hands back live. -/
theorem tryEncodings_balance (env : FSEnv) (m : RegexpMatcher) (rp : String)
    (cands : List (String × String)) (n : Nat) :
    countOpened n (tryEncodings env m rp cands).2
      = countClosed n (tryEncodings env m rp cands).2
        + (if liveFd (tryEncodings env m rp cands).1 = some n then 1 else 0) := by
  induction cands with
  | nil => simp [tryEncodings, countOpened, countClosed, liveFd]
  | cons c rest ih =>
    obtain ⟨name, replacement⟩ := c
    cases ho : env.openFile (m.replace rp replacement) with
    | none =>
      simp only [tryEncodings, ho]
      exact ih
    | some fd =>
      by_cases hdir : (env.fstat fd).isDirectory
      · by_cases hname : name = "identity"
        · simp only [tryEncodings, ho, hdir, hname, if_true, if_pos rfl]
          by_cases hfd : fd = n <;>
            simp [countOpened, countClosed, liveFd, hfd, hname]
        · simp only [tryEncodings, ho, hdir, if_true, if_neg hname]
          by_cases hfd : fd = n <;>
            simp [countOpened, countClosed, liveFd, hfd, ih] <;> omega
      · simp only [tryEncodings, ho, hdir, if_false]
        by_cases hfd : fd = n <;>
          simp [countOpened, countClosed, liveFd, hfd, hdir]

theorem openMapped_balance (env : FSEnv) (requestHeaders : StorageRequestHeaders)
    (parts : List String) (rp : String) (mapping : RegexpContentEncodingMapping)
    (n : Nat) (e : OpenError) (evs : List FsEvent)
    (h : openMapped env requestHeaders parts rp mapping = (.error e, evs)) :
    countOpened n evs = countClosed n evs := by
  rcases htr : tryEncodings env mapping.matcher rp
      (acceptEncodings requestHeaders.acceptEncoding
        mapping.encodingPreferences mapping.identityEncodingPreference) with ⟨r, evs2⟩
  have hb := tryEncodings_balance env mapping.matcher rp
    (acceptEncodings requestHeaders.acceptEncoding
      mapping.encodingPreferences mapping.identityEncodingPreference) n
  rw [htr] at hb
  simp only [openMapped, htr] at h
  cases r with
  | found name encodedPath fd stats => simp at h
  | isDirFd fd =>
    simp only [Prod.mk.injEq] at h
    rw [← h.2]
    simp only [liveFd] at hb
    rw [countOpened_append, countClosed_append]
    by_cases hfd : fd = n <;>
      simp only [hfd, Option.some_inj, if_pos rfl, if_neg] at hb ⊢ <;>
      simp [countOpened, countClosed, hb] <;> omega
  | exhausted =>
    simp only [Prod.mk.injEq] at h
    rw [← h.2]
    simpa [liveFd] using hb

theorem openUnmapped_balance (env : FSEnv) (parts : List String) (rp : String)
    (trail : Bool) (n : Nat) (e : OpenError) (evs : List FsEvent)
    (h : openUnmapped env parts rp trail = (.error e, evs)) :
    countOpened n evs = countClosed n evs := by
  cases ho : env.openFile rp with
  | none =>
    simp only [openUnmapped, ho, Prod.mk.injEq] at h
    rw [← h.2]
    rfl
  | some fd =>
    by_cases hdir : (env.fstat fd).isDirectory
    · cases trail with
      | false =>
        simp only [openUnmapped, ho] at h
        rw [hdir] at h
        simp only [Bool.not_false, if_true, Prod.mk.injEq] at h
        rw [← h.2]
        simp [countOpened, countClosed]
      | true =>
        simp only [openUnmapped, ho] at h
        rw [hdir] at h
        simp at h
    · cases trail with
      | false =>
        simp only [openUnmapped, ho] at h
        simp only [hdir] at h
        simp at h
      | true =>
        simp only [openUnmapped, ho] at h
        simp only [hdir] at h
        simp only [Bool.false_eq_true, if_false, Bool.not_true, if_true, Prod.mk.injEq] at h
        rw [← h.2]
        simp [countOpened, countClosed]

/-- **C2** — Open-failure atomicity: whenever `open` returns an error,
every descriptor it opened has been closed — in its event log, opens and
closes balance exactly, for every descriptor. -/
theorem open_failure_closes_all_fds (storage : FileSystemStorage) (env : FSEnv)
    (requestHeaders : StorageRequestHeaders) (p : FilePath) (e : OpenError)
    (evs : List FsEvent)
    (h : storage.open env requestHeaders p = (.error e, evs)) :
    ∀ n, countOpened n evs = countClosed n evs := by
  intro n
  cases hp : storage.parsePath p with
  | error e2 =>
    simp only [FileSystemStorage.open, hp, Prod.mk.injEq] at h
    rw [← h.2]
    rfl
  | ok parsed =>
    simp only [FileSystemStorage.open, hp] at h
    cases hsel : selectedEncodingMapping storage (joinPath storage.root parsed.pathParts)
        parsed.haveTrailingSlash with
    | some mapping =>
      simp only [openWithParsed, hsel] at h
      exact openMapped_balance env requestHeaders parsed.pathParts
        (joinPath storage.root parsed.pathParts) mapping n e evs h
    | none =>
      simp only [openWithParsed, hsel] at h
      exact openUnmapped_balance env parsed.pathParts
        (joinPath storage.root parsed.pathParts) parsed.haveTrailingSlash n e evs h

/-- An environment where every path opens as descriptor 7 and stats as a
directory. -/
def dirEnv : FSEnv := ⟨fun _ => some 7, fun _ => ⟨true, 0, 0⟩⟩

/-- **C2 witness** — opening `/todo.txt` over a directory raises
`IsDirectoryError`, and the log `[opened 7, closed 7]` balances. -/
theorem open_failure_closes_all_fds_witness :
    defaultStorage.open dirEnv ⟨none⟩ (.str "/todo.txt")
      = (.error (.isDirectory "/fixtures/todo.txt"), [.opened 7, .closed 7]) ∧
    countOpened 7 [FsEvent.opened 7, FsEvent.closed 7]
      = countClosed 7 [FsEvent.opened 7, FsEvent.closed 7] := by
  refine ⟨by decide, ?_⟩
  exact open_failure_closes_all_fds defaultStorage dirEnv ⟨none⟩ (.str "/todo.txt")
    (.isDirectory "/fixtures/todo.txt") [.opened 7, .closed 7] (by decide) 7

/-! ## C6: Vary on mapping match -/

/-- **C6** — For every successful `open`, the returned `StorageInfo` has
`vary = 'Accept-Encoding'` exactly when a configured content-encoding
mapping's matcher matched the resolved path without directory intent
(including when identity wins the negotiation); otherwise `vary` is
undefined. -/
theorem open_vary_iff_mapping_matched (storage : FileSystemStorage) (env : FSEnv)
    (requestHeaders : StorageRequestHeaders) (p : FilePath) (parsed : ParsedPath)
    (info : StorageInfo) (evs : List FsEvent)
    (hp : storage.parsePath p = .ok parsed)
    (h : storage.open env requestHeaders p = (.ok info, evs)) :
    info.vary = if (selectedEncodingMapping storage (joinPath storage.root parsed.pathParts)
        parsed.haveTrailingSlash).isSome then some "Accept-Encoding" else none := by
  simp only [FileSystemStorage.open, hp] at h
  cases hsel : selectedEncodingMapping storage (joinPath storage.root parsed.pathParts)
      parsed.haveTrailingSlash with
  | some mapping =>
    simp only [openWithParsed, hsel] at h
    rcases htr : tryEncodings env mapping.matcher (joinPath storage.root parsed.pathParts)
        (acceptEncodings requestHeaders.acceptEncoding mapping.encodingPreferences
          mapping.identityEncodingPreference) with ⟨r, evs2⟩
    simp only [openMapped, htr] at h
    cases r with
    | found name encodedPath fd stats =>
      simp only [Prod.mk.injEq, Except.ok.injEq] at h
      rw [← h.1]
      simp
    | isDirFd fd => simp at h
    | exhausted => simp at h
  | none =>
    simp only [openWithParsed, hsel] at h
    cases ho : env.openFile (joinPath storage.root parsed.pathParts) with
    | none => simp [openUnmapped, ho] at h
    | some fd =>
      by_cases hdir : (env.fstat fd).isDirectory
      · cases htrail : parsed.haveTrailingSlash with
        | false =>
          simp only [openUnmapped, ho, htrail] at h
          rw [hdir] at h
          simp at h
        | true =>
          simp only [openUnmapped, ho, htrail] at h
          rw [hdir] at h
          simp only [Bool.not_true, Bool.false_eq_true, if_false, if_true,
            Prod.mk.injEq, Except.ok.injEq] at h
          rw [← h.1]
          simp
      · cases htrail : parsed.haveTrailingSlash with
        | false =>
          simp only [openUnmapped, ho, htrail] at h
          simp only [hdir] at h
          simp only [Bool.false_eq_true, if_false, Prod.mk.injEq, Except.ok.injEq] at h
          rw [← h.1]
          simp
        | true =>
          simp only [openUnmapped, ho, htrail] at h
          simp only [hdir] at h
          simp at h

/-- A file environment: every path opens as descriptor 3, a 5-byte file. -/
def fileEnv : FSEnv := ⟨fun _ => some 3, fun _ => ⟨false, 100, 5⟩⟩

/-- A storage whose single mapping matches `.json` paths, with the gzip
variant obtained by appending `.gz`. -/
def gzipStorage : FileSystemStorage :=
  { root := "/fixtures"
  , contentEncodingMappings := some
      [{ matcher :=
          { test := fun s => s.data.reverse.take 5 = ['n', 'o', 's', 'j', '.']
          , replace := fun s repl => if repl = "$&" then s else s ++ ".gz" }
       , encodingPreferences :=

          [("gzip", ⟨"$1.gz", 0⟩), ("identity", ⟨"$&", 1⟩)]
       , identityEncodingPreference := ⟨"$&", 1⟩ }]
  , ignorePattern := some dotfilePattern
  , onDirectory := .off }

/-- The `StorageInfo` produced by opening `/gzip.json` on `gzipStorage`
with no `accept-encoding` header. -/
def gzipInfo : StorageInfo :=
  { pathParts := ["", "gzip.json"], resolvedPath := "/fixtures/gzip.json", fd := 3
  , stats := ⟨false, 100, 5⟩, fileName := "gzip.json"
  , mtimeMs := some 100, size := some 5
  , vary := some "Accept-Encoding", contentEncoding := some "identity" }

/-- **C6 witness** — opening `/gzip.json` on `gzipStorage` succeeds with
`vary = Accept-Encoding` (header absent, identity served), matching the
selected-mapping condition. -/
theorem open_vary_iff_mapping_matched_witness :
    gzipStorage.open fileEnv ⟨none⟩ (.str "/gzip.json") = (.ok gzipInfo, [.opened 3]) ∧
    gzipInfo.vary = some "Accept-Encoding" := by
  have heq : gzipStorage.open fileEnv ⟨none⟩ (.str "/gzip.json")
      = (.ok gzipInfo, [.opened 3]) := by decide
  refine ⟨heq, ?_⟩
  have h := open_vary_iff_mapping_matched gzipStorage fileEnv ⟨none⟩ (.str "/gzip.json")
    ⟨["", "gzip.json"], false⟩ gzipInfo [.opened 3] (by decide) heq
  rw [h]
  decide

/-! ## C7: close idempotence (refuted) -/

/-- The `StorageInfo` produced by opening `/todo.txt` over `fileEnv`. -/
def todoInfo : StorageInfo :=
  { pathParts := ["", "todo.txt"], resolvedPath := "/fixtures/todo.txt", fd := 3
  , stats := ⟨false, 100, 5⟩, fileName := "todo.txt"
  , mtimeMs := some 100, size := some 5, vary := none, contentEncoding := some "identity" }

/-- **C7 counterexample** — `close` is not idempotent: for a
`StorageInfo` produced by a successful `open`, a first `close` succeeds,
and a second `close` after the completed first one calls `fsClose` on the
same descriptor again and fails with `EBADF` instead of having no
effect. -/
theorem close_not_idempotent_counterexample :
    (defaultStorage.open fileEnv ⟨none⟩ (.str "/todo.txt")).1 = .ok todoInfo ∧
    defaultStorage.close todoInfo ⟨[3]⟩ = .ok ⟨[]⟩ ∧
    defaultStorage.close todoInfo ⟨[]⟩ = .error "EBADF" := by
  decide

/-- **C7 amended** — `close(storageInfo)` invokes `fsClose` on the stored
descriptor on every call: when the descriptor is open it is released
(removed from the descriptor table); a repeated call, the descriptor no
longer being open, fails with `EBADF` rather than being a no-op.
Closing exactly once per lifecycle is the caller's responsibility. -/
theorem close_single_release (storage : FileSystemStorage) (info : StorageInfo)
    (s : FdState) (h : s.openFds.contains info.fd = true) :
    storage.close info s = .ok ⟨s.openFds.erase info.fd⟩ ∧
    ∀ s2 : FdState, s2.openFds.contains info.fd = false →
      storage.close info s2 = .error "EBADF" := by
  constructor
  · show fsClose info.fd s = _
    unfold fsClose
    rw [if_pos h]
  · intro s2 h2
    show fsClose info.fd s2 = _
    unfold fsClose
    rw [if_neg (by rw [h2]; exact Bool.false_ne_true)]

/-- **C7 amended witness** — concrete double close of `todoInfo`. -/
theorem close_single_release_witness :
    defaultStorage.close todoInfo ⟨[3]⟩ = .ok ⟨[]⟩ ∧
    defaultStorage.close todoInfo ⟨[]⟩ = .error "EBADF" := by
  constructor
  · have h := (close_single_release defaultStorage todoInfo ⟨[3]⟩ (by decide)).1
    have he : ([3] : List Nat).erase 3 = [] := by decide
    rw [← he]
    exact h
  · exact (close_single_release defaultStorage todoInfo ⟨[3]⟩ (by decide)).2 ⟨[]⟩ (by decide)

/-! ## C3: encoding-variant selection -/

/-- The content-encoding selection procedure exactly as the spec words it
(§4.B steps 2-3): for each acceptable candidate in order, form
`encodedPath = matcher.replace(resolvedPath, replacement)` and attempt to
open; on success stat; a directory surfaces `IsDirectory` for `identity`
and is closed and skipped otherwise; the first non-directory opening wins;
if none succeed, `DoesNotExist`.  This is the specification side of the
refinement; `tryEncodings` / `openMapped` is the code side. -/
def encodingSelectionSpec (env : FSEnv) (matcher : RegexpMatcher) (resolvedPath : String) :
    List (String × String) → Except OpenError (String × String × Nat × Stats)
  | [] => .error (.doesNotExist resolvedPath)
  | (name, replacement) :: rest =>
    let encodedPath := matcher.replace resolvedPath replacement
    match env.openFile encodedPath with
    | none => encodingSelectionSpec env matcher resolvedPath rest
    | some fd =>
      if (env.fstat fd).isDirectory then
        if name = "identity" then .error (.isDirectory resolvedPath)
        else encodingSelectionSpec env matcher resolvedPath rest
      else .ok (name, encodedPath, fd, env.fstat fd)

theorem tryEncodings_spec (env : FSEnv) (m : RegexpMatcher) (rp : String)
    (cands : List (String × String)) :
    encodingSelectionSpec env m rp cands =
      match (tryEncodings env m rp cands).1 with
      | .found name encodedPath fd stats => .ok (name, encodedPath, fd, stats)
      | .isDirFd _ => .error (.isDirectory rp)
      | .exhausted => .error (.doesNotExist rp) := by
  induction cands with
  | nil => rfl
  | cons c rest ih =>
    obtain ⟨name, replacement⟩ := c
    cases ho : env.openFile (m.replace rp replacement) with
    | none =>
      simp only [encodingSelectionSpec, tryEncodings, ho]
      exact ih
    | some fd =>
      by_cases hdir : (env.fstat fd).isDirectory
      · by_cases hname : name = "identity"
        · simp [encodingSelectionSpec, tryEncodings, ho, hdir, hname]
        · simp only [encodingSelectionSpec, tryEncodings, ho, hdir, hname, if_true, if_false]
          exact ih
      · simp [encodingSelectionSpec, tryEncodings, ho, hdir]

/-- **C3** — When a configured mapping's matcher matched the resolved path
(no directory intent), `open` behaves exactly as the spec's selection
procedure over the acceptable encodings in preference order: the first
candidate opening as a non-directory is served with `contentEncoding` set
to its name and `resolvedPath` set to the candidate path; a directory
candidate raises `IsDirectory` when named `identity` and is closed and
skipped otherwise (on success every descriptor but the served one is
closed); if no candidate yields a non-directory, `DoesNotExist` is
raised. -/
theorem open_encoding_selection (storage : FileSystemStorage) (env : FSEnv)
    (requestHeaders : StorageRequestHeaders) (p : FilePath) (parsed : ParsedPath)
    (mapping : RegexpContentEncodingMapping)
    (hp : storage.parsePath p = .ok parsed)
    (hsel : selectedEncodingMapping storage (joinPath storage.root parsed.pathParts)
        parsed.haveTrailingSlash = some mapping) :
    (storage.open env requestHeaders p).1 =
      (match encodingSelectionSpec env mapping.matcher (joinPath storage.root parsed.pathParts)
          (acceptEncodings requestHeaders.acceptEncoding mapping.encodingPreferences
            mapping.identityEncodingPreference) with
       | .ok r =>
         .ok { pathParts := parsed.pathParts, resolvedPath := r.2.1, fd := r.2.2.1
             , stats := r.2.2.2, fileName := lastPart parsed.pathParts
             , mtimeMs := some r.2.2.2.mtimeMs, size := some r.2.2.2.size
             , vary := some "Accept-Encoding", contentEncoding := some r.1 }
       | .error e2 => .error e2) ∧
    (∀ info, (storage.open env requestHeaders p).1 = .ok info →
      ∀ n, countOpened n (storage.open env requestHeaders p).2
        = countClosed n (storage.open env requestHeaders p).2
          + (if info.fd = n then 1 else 0)) := by
  have hopen : storage.open env requestHeaders p
      = openMapped env requestHeaders parsed.pathParts
          (joinPath storage.root parsed.pathParts) mapping := by
    simp only [FileSystemStorage.open, hp, openWithParsed, hsel]
  rcases htr : tryEncodings env mapping.matcher (joinPath storage.root parsed.pathParts)
      (acceptEncodings requestHeaders.acceptEncoding mapping.encodingPreferences
        mapping.identityEncodingPreference) with ⟨r, evs2⟩
  rw [hopen, tryEncodings_spec env mapping.matcher (joinPath storage.root parsed.pathParts),
    htr]
  constructor
  · simp only [openMapped, htr]
    cases r with
    | found name encodedPath fd stats => rfl
    | isDirFd fd => rfl
    | exhausted => rfl
  · intro info hinfo n
    simp only [openMapped, htr] at hinfo ⊢
    have hb := tryEncodings_balance env mapping.matcher
      (joinPath storage.root parsed.pathParts)
      (acceptEncodings requestHeaders.acceptEncoding mapping.encodingPreferences
        mapping.identityEncodingPreference) n
    rw [htr] at hb
    cases r with
    | found name encodedPath fd stats =>
      simp only [Except.ok.injEq] at hinfo
      rw [← hinfo]
      simpa [liveFd] using hb
    | isDirFd fd => simp at hinfo
    | exhausted => simp at hinfo

/-- **C3 witness** — on `gzipStorage` with header `gzip;q=1`, the first
acceptable candidate is the gzip variant `/fixtures/gzip.json.gz`, which
opens as a file and is served with `contentEncoding = gzip`. -/
theorem open_encoding_selection_witness :
    (gzipStorage.open fileEnv ⟨some [("gzip", 1000)]⟩ (.str "/gzip.json")).1
      = .ok { pathParts := ["", "gzip.json"], resolvedPath := "/fixtures/gzip.json.gz"
            , fd := 3, stats := ⟨false, 100, 5⟩, fileName := "gzip.json"
            , mtimeMs := some 100, size := some 5
            , vary := some "Accept-Encoding", contentEncoding := some "gzip" } := by
  have h := (open_encoding_selection gzipStorage fileEnv ⟨some [("gzip", 1000)]⟩
    (.str "/gzip.json") ⟨["", "gzip.json"], false⟩
    ((gzipStorage.contentEncodingMappings.getD []).headD
      ⟨⟨fun _ => false, fun s _ => s⟩, [], ⟨"$&", 0⟩⟩)
    (by decide) (by rfl)).1
  rw [h]
  decide

/-! ## C10: query-string transparency -/

theorem urlPreprocess_append_query (p q : String) :
    urlPreprocess ((p ++ "?" ++ q).data)
      = p.data.filter (fun c => !tabOrNewline c)
        ++ '?' :: ((q.data.filter (fun c => !tabOrNewline c)).reverse.dropWhile
            c0OrSpace).reverse := by
  unfold urlPreprocess
  rw [String.data_append, String.data_append]
  rw [show ("?" : String).data = ['?'] from rfl]
  rw [List.filter_append, List.filter_append]
  rw [show List.filter (fun c => !tabOrNewline c) ['?'] = ['?'] from rfl]
  rw [List.reverse_append, List.reverse_append]
  rw [show (['?'] : List Char).reverse = ['?'] from rfl]
  rw [List.dropWhile_append]
  have hq : List.dropWhile c0OrSpace
      ('?' :: (p.data.filter (fun c => !tabOrNewline c)).reverse)
      = '?' :: (p.data.filter (fun c => !tabOrNewline c)).reverse := by
    rw [List.dropWhile_cons, if_neg (by decide)]
  rw [show (['?'] ++ (p.data.filter (fun c => !tabOrNewline c)).reverse)
      = '?' :: (p.data.filter (fun c => !tabOrNewline c)).reverse from rfl]
  by_cases he : (List.dropWhile c0OrSpace
      (q.data.filter (fun c => !tabOrNewline c)).reverse).isEmpty = true
  · rw [if_pos he, hq]
    rw [List.isEmpty_iff.mp he]
    simp
  · rw [if_neg he]
    rw [List.reverse_append, List.reverse_cons, List.reverse_reverse]
    simp

theorem takeWhile_path_only (P R : List Char) :
    ((P ++ '?' :: R).takeWhile (· ≠ '#')).takeWhile (· ≠ '?')
      = (P.takeWhile (· ≠ '#')).takeWhile (· ≠ '?') := by
  induction P with
  | nil => simp [List.takeWhile_cons]
  | cons c P2 ih =>
    rw [List.cons_append, List.takeWhile_cons, List.takeWhile_cons]
    by_cases hc : c = '#'
    · rw [if_neg (by simp [hc]), if_neg (by simp [hc])]
    · rw [if_pos (by simp [hc]), if_pos (by simp [hc]),
        List.takeWhile_cons, List.takeWhile_cons]
      by_cases hq : c = '?'
      · rw [if_neg (by simp [hq]), if_neg (by simp [hq])]
      · rw [if_pos (by simp [hq]), if_pos (by simp [hq]), ih]

/-- The raw path (before the first `?`, fragment dropped) of
`p ++ "?" ++ q` does not depend on `q`. -/
theorem urlSplitRef_path_query_invariant (p q1 q2 : String) :
    (urlSplitRef (p ++ "?" ++ q1)).1 = (urlSplitRef (p ++ "?" ++ q2)).1 := by
  show ((urlPreprocess ((p ++ "?" ++ q1).data)).takeWhile (· ≠ '#')).takeWhile (· ≠ '?')
      = ((urlPreprocess ((p ++ "?" ++ q2).data)).takeWhile (· ≠ '#')).takeWhile (· ≠ '?')
  rw [urlPreprocess_append_query p q1, urlPreprocess_append_query p q2,
    takeWhile_path_only, takeWhile_path_only]

theorem urlPathSegments_query_invariant (p q1 q2 : String) :
    urlPathSegments (p ++ "?" ++ q1) = urlPathSegments (p ++ "?" ++ q2) := by
  unfold urlPathSegments
  rw [urlSplitRef_path_query_invariant p q1 q2]

theorem parseFront_str_ok (s : String) (parts : List String)
    (h : parseFront (.str s) = .ok parts) :
    stringStartsWithSlash s = true ∧
    ("" :: urlPathSegments s).mapM decodeURIComponent = some parts := by
  by_cases hsw : stringStartsWithSlash s = true
  · rw [parseFront_str_eq s hsw] at h
    refine ⟨hsw, ?_⟩
    cases hdec : ("" :: urlPathSegments s).mapM decodeURIComponent with
    | none =>
      simp only [hdec] at h
      exact absurd h (by simp)
    | some decoded =>
      simp only [hdec] at h
      by_cases hne : s ≠ urlNormalizedPath s
      · rw [if_pos hne] at h
        exact absurd h (by simp)
      · rw [if_neg hne] at h
        simp only [Except.ok.injEq] at h
        rw [h]
  · simp only [Bool.not_eq_true] at hsw
    simp [parseFront, hsw] at h

/-- **C10** — Query-string transparency: the path parts are derived from
the URL pathname only, so two references sharing the part before `?` that
both parse successfully yield the same parse result (same path parts, same
directory intent), whatever their query strings. -/
theorem parsePath_query_transparency (storage : FileSystemStorage)
    (p q1 q2 : String) (o1 o2 : ParsedPath)
    (h1 : storage.parsePath (.str (p ++ "?" ++ q1)) = .ok o1)
    (h2 : storage.parsePath (.str (p ++ "?" ++ q2)) = .ok o2) :
    o1 = o2 := by
  rcases hf1 : parseFront (.str (p ++ "?" ++ q1)) with e1 | parts1
  · simp only [FileSystemStorage.parsePath, hf1] at h1
    exact absurd h1 (by simp)
  · simp only [FileSystemStorage.parsePath, hf1] at h1
    rcases hf2 : parseFront (.str (p ++ "?" ++ q2)) with e2 | parts2
    · simp only [FileSystemStorage.parsePath, hf2] at h2
      exact absurd h2 (by simp)
    · simp only [FileSystemStorage.parsePath, hf2] at h2
      have hd1 := (parseFront_str_ok _ _ hf1).2
      have hd2 := (parseFront_str_ok _ _ hf2).2
      rw [urlPathSegments_query_invariant p q1 q2] at hd1
      have hparts : parts1 = parts2 := by
        rw [hd1] at hd2
        exact Option.some_inj.mp hd2
      rw [hparts] at h1
      rw [h1] at h2
      exact Except.ok.inj h2

/-- **C10 witness** — `/a?x` and `/a?y` both parse to the same path parts
`["", "a"]`. -/
theorem parsePath_query_transparency_witness :
    defaultStorage.parsePath (.str "/a?x") = .ok ⟨["", "a"], false⟩ ∧
    defaultStorage.parsePath (.str "/a?y") = .ok ⟨["", "a"], false⟩ ∧
    (⟨["", "a"], false⟩ : ParsedPath) = ⟨["", "a"], false⟩ := by
  refine ⟨by decide, by decide, ?_⟩
  exact parsePath_query_transparency defaultStorage "/a" "x" "y"
    ⟨["", "a"], false⟩ ⟨["", "a"], false⟩ (by decide) (by decide)

/-! ## C1: path safety

The string branch never yields a `.` or `..` segment because the URL
canonicalization removes dot segments (including their percent-encoded
forms) and because a percent-decoded segment can only be `.` or `..` if
the raw segment was one of those forms.  The next lemmas invert the
decoder far enough to prove this. -/

theorem char_eq_of_toNat_eq {c d : Char} (h : c.toNat = d.toNat) : c = d := by
  cases c with
  | mk cv cvalid =>
    cases d with
    | mk dv dvalid =>
      congr 1
      cases cv; cases dv
      congr 1
      exact BitVec.eq_of_toNat_eq h

theorem char_toNat_ofNat {n : Nat} (hv : n.isValidChar) : (Char.ofNat n).toNat = n := by
  rw [Char.ofNat, dif_pos hv]
  have hlt : n < 1114112 := by
    rcases hv with h | ⟨_, h⟩ <;> omega
  simp [Char.ofNatAux, Char.toNat, UInt32.toNat, UInt32.ofNatTruncate, BitVec.toNat_ofNat]

theorem hexVal_le (c : Char) (v : Nat) (h : hexVal c = some v) : v ≤ 15 := by
  unfold hexVal at h
  split_ifs at h <;> (injection h with h; omega)

theorem hexVal_inv_two (c : Char) (h : hexVal c = some 2) : c = '2' := by
  have h50 : ('2' : Char).toNat = 50 := rfl
  unfold hexVal at h
  split_ifs at h with h1 h2 h3 <;> injection h with h
  · exact char_eq_of_toNat_eq (by omega)
  · omega
  · omega

theorem hexVal_inv_fourteen (c : Char) (h : hexVal c = some 14) : c = 'e' ∨ c = 'E' := by
  have he : ('e' : Char).toNat = 101 := rfl
  have hE : ('E' : Char).toNat = 69 := rfl
  unfold hexVal at h
  split_ifs at h with h1 h2 h3 <;> injection h with h
  · omega
  · exact Or.inl (char_eq_of_toNat_eq (by omega))
  · exact Or.inr (char_eq_of_toNat_eq (by omega))

/-- A token decoding to a single ASCII character. -/
def smallTok (t : Char ⊕ Nat) (c : Char) : Prop :=
  t = .inl c ∨ ∃ b, t = .inr b ∧ b < 128 ∧ Char.ofNat b = c

theorem utf8Char2_big (b b2 : Nat) (hb : 194 ≤ b ∧ b ≤ 223) (hc : contByte b2 = true) :
    128 ≤ (utf8Char2 b b2).toNat := by
  simp only [contByte, Bool.and_eq_true, decide_eq_true_eq] at hc
  have hv : ((b - 192) * 64 + (b2 - 128)).isValidChar := by
    show _ < 55296 ∨ (57343 < _ ∧ _ < 1114112)
    left
    omega
  unfold utf8Char2
  rw [char_toNat_ofNat hv]
  omega

theorem utf8Char3_big (b b2 b3 : Nat) (hb : 224 ≤ b ∧ b ≤ 239) (hc : cont3 b b2 b3) :
    128 ≤ (utf8Char3 b b2 b3).toNat := by
  obtain ⟨hc2, hc3, hc4, hc5⟩ := hc
  simp only [contByte, Bool.and_eq_true, decide_eq_true_eq] at hc2 hc3
  have hv : ((b - 224) * 4096 + (b2 - 128) * 64 + (b3 - 128)).isValidChar := by
    show _ < 55296 ∨ (57343 < _ ∧ _ < 1114112)
    omega
  unfold utf8Char3
  rw [char_toNat_ofNat hv]
  omega

theorem utf8Char4_big (b b2 b3 b4 : Nat) (hb : 240 ≤ b ∧ b ≤ 244) (hc : cont4 b b2 b3 b4) :
    128 ≤ (utf8Char4 b b2 b3 b4).toNat := by
  obtain ⟨hc2, hc3, hc4, hc5, hc6⟩ := hc
  simp only [contByte, Bool.and_eq_true, decide_eq_true_eq] at hc2 hc3 hc4
  have hv : ((b - 240) * 262144 + (b2 - 128) * 4096 + (b3 - 128) * 64 + (b4 - 128)).isValidChar := by
    show _ < 55296 ∨ (57343 < _ ∧ _ < 1114112)
    omega
  unfold utf8Char4
  rw [char_toNat_ofNat hv]
  omega

/-- Master inversion for `decodeTokens` on a nonempty token list: the
output starts with a character that either comes from a single small token
(with the remaining tokens decoding the tail) or is non-ASCII (a multi-byte
UTF-8 sequence). -/
theorem decodeTokens_cons_input (t : Char ⊕ Nat) (rest : List (Char ⊕ Nat))
    (cs : List Char) (h : decodeTokens (t :: rest) = some cs) :
    ∃ c cs2, cs = c :: cs2 ∧
      ((smallTok t c ∧ decodeTokens rest = some cs2) ∨ 128 ≤ c.toNat) := by
  cases t with
  | inl c =>
    have h' : (decodeTokens rest).map (c :: ·) = some cs := h
    rw [Option.map_eq_some'] at h'
    obtain ⟨ds, hds, he⟩ := h'
    exact ⟨c, ds, he.symm, Or.inl ⟨Or.inl rfl, hds⟩⟩
  | inr b =>
    rcases rest with _ | ⟨t2, rest2⟩
    · have h' : (if b < 128 then (decodeTokens ([] : List (Char ⊕ Nat))).map (Char.ofNat b :: ·)
          else none) = some cs := h
      by_cases hb : b < 128
      · rw [if_pos hb, Option.map_eq_some'] at h'
        obtain ⟨ds, hds, he⟩ := h'
        exact ⟨Char.ofNat b, ds, he.symm, Or.inl ⟨Or.inr ⟨b, rfl, hb, rfl⟩, hds⟩⟩
      · rw [if_neg hb] at h'
        exact Option.noConfusion h'
    · cases t2 with
      | inl c2 =>
        have h' : (if b < 128 then (decodeTokens (.inl c2 :: rest2)).map (Char.ofNat b :: ·)
            else none) = some cs := h
        by_cases hb : b < 128
        · rw [if_pos hb, Option.map_eq_some'] at h'
          obtain ⟨ds, hds, he⟩ := h'
          exact ⟨Char.ofNat b, ds, he.symm, Or.inl ⟨Or.inr ⟨b, rfl, hb, rfl⟩, hds⟩⟩
        · rw [if_neg hb] at h'
          exact Option.noConfusion h'
      | inr b2 =>
        rcases rest2 with _ | ⟨t3, rest3⟩
        · have h' : (if b < 128 then (decodeTokens [.inr b2]).map (Char.ofNat b :: ·)
              else if 194 ≤ b ∧ b ≤ 223 then
                if contByte b2 = true then
                  (decodeTokens ([] : List (Char ⊕ Nat))).map (utf8Char2 b b2 :: ·)
                else none
              else none) = some cs := h
          by_cases hb : b < 128
          · rw [if_pos hb, Option.map_eq_some'] at h'
            obtain ⟨ds, hds, he⟩ := h'
            exact ⟨Char.ofNat b, ds, he.symm, Or.inl ⟨Or.inr ⟨b, rfl, hb, rfl⟩, hds⟩⟩
          · rw [if_neg hb] at h'
            by_cases h2 : 194 ≤ b ∧ b ≤ 223
            · rw [if_pos h2] at h'
              by_cases hc : contByte b2 = true
              · rw [if_pos hc, Option.map_eq_some'] at h'
                obtain ⟨ds, hds, he⟩ := h'
                exact ⟨_, ds, he.symm, Or.inr (utf8Char2_big b b2 h2 hc)⟩
              · rw [if_neg hc] at h'
                exact Option.noConfusion h'
            · rw [if_neg h2] at h'
              exact Option.noConfusion h'
        · cases t3 with
          | inl c3 =>
            have h' : (if b < 128 then
                  (decodeTokens (.inr b2 :: .inl c3 :: rest3)).map (Char.ofNat b :: ·)
                else if 194 ≤ b ∧ b ≤ 223 then
                  if contByte b2 = true then
                    (decodeTokens (.inl c3 :: rest3)).map (utf8Char2 b b2 :: ·)
                  else none
                else none) = some cs := h
            by_cases hb : b < 128
            · rw [if_pos hb, Option.map_eq_some'] at h'
              obtain ⟨ds, hds, he⟩ := h'
              exact ⟨Char.ofNat b, ds, he.symm, Or.inl ⟨Or.inr ⟨b, rfl, hb, rfl⟩, hds⟩⟩
            · rw [if_neg hb] at h'
              by_cases h2 : 194 ≤ b ∧ b ≤ 223
              · rw [if_pos h2] at h'
                by_cases hc : contByte b2 = true
                · rw [if_pos hc, Option.map_eq_some'] at h'
                  obtain ⟨ds, hds, he⟩ := h'
                  exact ⟨_, ds, he.symm, Or.inr (utf8Char2_big b b2 h2 hc)⟩
                · rw [if_neg hc] at h'
                  exact Option.noConfusion h'
              · rw [if_neg h2] at h'
                exact Option.noConfusion h'
          | inr b3 =>
            rcases rest3 with _ | ⟨t4, rest4⟩
            · have h' : (if b < 128 then
                    (decodeTokens [.inr b2, .inr b3]).map (Char.ofNat b :: ·)
                  else if 194 ≤ b ∧ b ≤ 223 then
                    if contByte b2 = true then
                      (decodeTokens [.inr b3]).map (utf8Char2 b b2 :: ·)
                    else none
                  else if 224 ≤ b ∧ b ≤ 239 then
                    if cont3 b b2 b3 then
                      (decodeTokens ([] : List (Char ⊕ Nat))).map (utf8Char3 b b2 b3 :: ·)
                    else none
                  else none) = some cs := h
              by_cases hb : b < 128
              · rw [if_pos hb, Option.map_eq_some'] at h'
                obtain ⟨ds, hds, he⟩ := h'
                exact ⟨Char.ofNat b, ds, he.symm, Or.inl ⟨Or.inr ⟨b, rfl, hb, rfl⟩, hds⟩⟩
              · rw [if_neg hb] at h'
                by_cases h2 : 194 ≤ b ∧ b ≤ 223
                · rw [if_pos h2] at h'
                  by_cases hc : contByte b2 = true
                  · rw [if_pos hc, Option.map_eq_some'] at h'
                    obtain ⟨ds, hds, he⟩ := h'
                    exact ⟨_, ds, he.symm, Or.inr (utf8Char2_big b b2 h2 hc)⟩
                  · rw [if_neg hc] at h'
                    exact Option.noConfusion h'
                · rw [if_neg h2] at h'
                  by_cases h3 : 224 ≤ b ∧ b ≤ 239
                  · rw [if_pos h3] at h'
                    by_cases hc : cont3 b b2 b3
                    · rw [if_pos hc, Option.map_eq_some'] at h'
                      obtain ⟨ds, hds, he⟩ := h'
                      exact ⟨_, ds, he.symm, Or.inr (utf8Char3_big b b2 b3 h3 hc)⟩
                    · rw [if_neg hc] at h'
                      exact Option.noConfusion h'
                  · rw [if_neg h3] at h'
                    exact Option.noConfusion h'
            · cases t4 with
              | inl c4 =>
                have h' : (if b < 128 then
                      (decodeTokens (.inr b2 :: .inr b3 :: .inl c4 :: rest4)).map
                        (Char.ofNat b :: ·)
                    else if 194 ≤ b ∧ b ≤ 223 then
                      if contByte b2 = true then
                        (decodeTokens (.inr b3 :: .inl c4 :: rest4)).map (utf8Char2 b b2 :: ·)
                      else none
                    else if 224 ≤ b ∧ b ≤ 239 then
                      if cont3 b b2 b3 then
                        (decodeTokens (.inl c4 :: rest4)).map (utf8Char3 b b2 b3 :: ·)
                      else none
                    else none) = some cs := h
                by_cases hb : b < 128
                · rw [if_pos hb, Option.map_eq_some'] at h'
                  obtain ⟨ds, hds, he⟩ := h'
                  exact ⟨Char.ofNat b, ds, he.symm, Or.inl ⟨Or.inr ⟨b, rfl, hb, rfl⟩, hds⟩⟩
                · rw [if_neg hb] at h'
                  by_cases h2 : 194 ≤ b ∧ b ≤ 223
                  · rw [if_pos h2] at h'
                    by_cases hc : contByte b2 = true
                    · rw [if_pos hc, Option.map_eq_some'] at h'
                      obtain ⟨ds, hds, he⟩ := h'
                      exact ⟨_, ds, he.symm, Or.inr (utf8Char2_big b b2 h2 hc)⟩
                    · rw [if_neg hc] at h'
                      exact Option.noConfusion h'
                  · rw [if_neg h2] at h'
                    by_cases h3 : 224 ≤ b ∧ b ≤ 239
                    · rw [if_pos h3] at h'
                      by_cases hc : cont3 b b2 b3
                      · rw [if_pos hc, Option.map_eq_some'] at h'
                        obtain ⟨ds, hds, he⟩ := h'
                        exact ⟨_, ds, he.symm, Or.inr (utf8Char3_big b b2 b3 h3 hc)⟩
                      · rw [if_neg hc] at h'
                        exact Option.noConfusion h'
                    · rw [if_neg h3] at h'
                      exact Option.noConfusion h'
              | inr b4 =>
                have h' : (if b < 128 then
                      (decodeTokens (.inr b2 :: .inr b3 :: .inr b4 :: rest4)).map
                        (Char.ofNat b :: ·)
                    else if 194 ≤ b ∧ b ≤ 223 then
                      if contByte b2 = true then
                        (decodeTokens (.inr b3 :: .inr b4 :: rest4)).map (utf8Char2 b b2 :: ·)
                      else none
                    else if 224 ≤ b ∧ b ≤ 239 then
                      if cont3 b b2 b3 then
                        (decodeTokens (.inr b4 :: rest4)).map (utf8Char3 b b2 b3 :: ·)
                      else none
                    else if 240 ≤ b ∧ b ≤ 244 then
                      if cont4 b b2 b3 b4 then
                        (decodeTokens rest4).map (utf8Char4 b b2 b3 b4 :: ·)
                      else none
                    else none) = some cs := h
                by_cases hb : b < 128
                · rw [if_pos hb, Option.map_eq_some'] at h'
                  obtain ⟨ds, hds, he⟩ := h'
                  exact ⟨Char.ofNat b, ds, he.symm, Or.inl ⟨Or.inr ⟨b, rfl, hb, rfl⟩, hds⟩⟩
                · rw [if_neg hb] at h'
                  by_cases h2 : 194 ≤ b ∧ b ≤ 223
                  · rw [if_pos h2] at h'
                    by_cases hc : contByte b2 = true
                    · rw [if_pos hc, Option.map_eq_some'] at h'
                      obtain ⟨ds, hds, he⟩ := h'
                      exact ⟨_, ds, he.symm, Or.inr (utf8Char2_big b b2 h2 hc)⟩
                    · rw [if_neg hc] at h'
                      exact Option.noConfusion h'
                  · rw [if_neg h2] at h'
                    by_cases h3 : 224 ≤ b ∧ b ≤ 239
                    · rw [if_pos h3] at h'
                      by_cases hc : cont3 b b2 b3
                      · rw [if_pos hc, Option.map_eq_some'] at h'
                        obtain ⟨ds, hds, he⟩ := h'
                        exact ⟨_, ds, he.symm, Or.inr (utf8Char3_big b b2 b3 h3 hc)⟩
                      · rw [if_neg hc] at h'
                        exact Option.noConfusion h'
                    · rw [if_neg h3] at h'
                      by_cases h4 : 240 ≤ b ∧ b ≤ 244
                      · rw [if_pos h4] at h'
                        by_cases hc : cont4 b b2 b3 b4
                        · rw [if_pos hc, Option.map_eq_some'] at h'
                          obtain ⟨ds, hds, he⟩ := h'
                          exact ⟨_, ds, he.symm, Or.inr (utf8Char4_big b b2 b3 b4 h4 hc)⟩
                        · rw [if_neg hc] at h'
                          exact Option.noConfusion h'
                      · rw [if_neg h4] at h'
                        exact Option.noConfusion h'

/-- `decodeTokens` produces an empty output only from an empty input. -/
theorem decodeTokens_some_nil (ts : List (Char ⊕ Nat)) (h : decodeTokens ts = some []) :
    ts = [] := by
  cases ts with
  | nil => rfl
  | cons t rest =>
    obtain ⟨c, cs2, he, _⟩ := decodeTokens_cons_input t rest [] h
    exact absurd he (by simp)

theorem decodeTokens_singleton (ts : List (Char ⊕ Nat)) (c : Char)
    (h : decodeTokens ts = some [c]) :
    128 ≤ c.toNat ∨ ∃ t, ts = [t] ∧ smallTok t c := by
  cases ts with
  | nil => exact absurd h (by simp [decodeTokens])
  | cons t rest =>
    obtain ⟨c2, cs2, he, hor⟩ := decodeTokens_cons_input t rest [c] h
    obtain ⟨he1, he2⟩ := List.cons.inj he
    subst he1
    rcases hor with ⟨hsm, hrest⟩ | hbig
    · right
      have : rest = [] := decodeTokens_some_nil rest (he2 ▸ hrest)
      exact ⟨t, by rw [this], hsm⟩
    · exact Or.inl hbig

theorem decodeTokens_pair (ts : List (Char ⊕ Nat)) (c1 c2 : Char)
    (h : decodeTokens ts = some [c1, c2]) :
    128 ≤ c1.toNat ∨ 128 ≤ c2.toNat ∨
      ∃ t1 t2, ts = [t1, t2] ∧ smallTok t1 c1 ∧ smallTok t2 c2 := by
  cases ts with
  | nil => exact absurd h (by simp [decodeTokens])
  | cons t rest =>
    obtain ⟨d, ds, he, hor⟩ := decodeTokens_cons_input t rest [c1, c2] h
    obtain ⟨he1, he2⟩ := List.cons.inj he
    subst he1
    rcases hor with ⟨hsm, hrest⟩ | hbig
    · rcases decodeTokens_singleton rest c2 (he2 ▸ hrest) with hbig2 | ⟨t2, hrest2, hsm2⟩
      · exact Or.inr (Or.inl hbig2)
      · exact Or.inr (Or.inr ⟨t, t2, by rw [hrest2], hsm, hsm2⟩)
    · exact Or.inl hbig

/-- `pctTokens` produces an empty output only from an empty input. -/
theorem pctTokens_some_nil (cs : List Char) (h : pctTokens cs = some []) : cs = [] := by
  cases cs with
  | nil => rfl
  | cons c rest =>
    exfalso
    rw [pctTokens.eq_def] at h
    simp only [] at h
    by_cases hc : c = '%'
    · rw [if_pos hc] at h
      rcases rest with _ | ⟨d1, rest1⟩
      · exact Option.noConfusion h
      · rcases rest1 with _ | ⟨d2, rest2⟩
        · exact Option.noConfusion h
        · cases ha : hexVal d1 with
          | none =>
            simp only [ha] at h
            exact Option.noConfusion h
          | some a =>
            cases hb : hexVal d2 with
            | none =>
              simp only [ha, hb] at h
              exact Option.noConfusion h
            | some b =>
              simp only [ha, hb, Option.map_eq_some'] at h
              obtain ⟨ds, _, he⟩ := h
              exact List.cons_ne_nil _ _ he
    · rw [if_neg hc, Option.map_eq_some'] at h
      obtain ⟨ds, _, he⟩ := h
      exact List.cons_ne_nil _ _ he

/-- Master inversion for `pctTokens` on a nonempty output: the first token
is a literal character (not `%`) or the byte of a `%XX` triple. -/
theorem pctTokens_cons_inv (cs : List Char) (t : Char ⊕ Nat) (ts : List (Char ⊕ Nat))
    (h : pctTokens cs = some (t :: ts)) :
    (∃ c rest, cs = c :: rest ∧ ¬ c = '%' ∧ t = .inl c ∧ pctTokens rest = some ts) ∨
    (∃ d1 d2 a b rest, cs = '%' :: d1 :: d2 :: rest ∧ hexVal d1 = some a
      ∧ hexVal d2 = some b ∧ t = .inr (16 * a + b) ∧ pctTokens rest = some ts) := by
  cases cs with
  | nil => exact absurd h (by simp [pctTokens])
  | cons c rest =>
    rw [pctTokens.eq_def] at h
    simp only [] at h
    by_cases hc : c = '%'
    · subst hc
      rw [if_pos rfl] at h
      rcases rest with _ | ⟨d1, rest1⟩
      · exact Option.noConfusion h
      · rcases rest1 with _ | ⟨d2, rest2⟩
        · exact Option.noConfusion h
        · cases ha : hexVal d1 with
          | none =>
            simp only [ha] at h
            exact Option.noConfusion h
          | some a =>
            cases hb : hexVal d2 with
            | none =>
              simp only [ha, hb] at h
              exact Option.noConfusion h
            | some b =>
              simp only [ha, hb, Option.map_eq_some'] at h
              obtain ⟨ds, hds, he⟩ := h
              obtain ⟨he1, he2⟩ := List.cons.inj he
              exact Or.inr ⟨d1, d2, a, b, rest2, rfl, ha, hb, he1.symm, he2 ▸ hds⟩
    · rw [if_neg hc, Option.map_eq_some'] at h
      obtain ⟨ds, hds, he⟩ := h
      obtain ⟨he1, he2⟩ := List.cons.inj he
      exact Or.inl ⟨c, rest, rfl, hc, he1.symm, he2 ▸ hds⟩

theorem string_eq_of_data {s : String} {l : List Char} (h : s.data = l) : s = String.mk l := by
  cases s with
  | mk data =>
    have h2 : data = l := h
    rw [h2]

/-- A token decoding to `.` comes from the raw text `.`, `%2e` or `%2E`. -/
theorem pct_dot_atom (cs : List Char) (t : Char ⊕ Nat) (ts : List (Char ⊕ Nat))
    (h : pctTokens cs = some (t :: ts)) (hs : smallTok t '.') :
    ∃ rest, pctTokens rest = some ts ∧
      (cs = '.' :: rest ∨ cs = '%' :: '2' :: 'e' :: rest ∨ cs = '%' :: '2' :: 'E' :: rest) := by
  rcases pctTokens_cons_inv cs t ts h with ⟨c, rest, hcs, hcp, ht, hrest⟩ |
      ⟨d1, d2, a, b, rest, hcs, ha, hb, ht, hrest⟩
  · rcases hs with hs | ⟨b0, hs, _, _⟩
    · rw [ht] at hs
      have hc : c = '.' := Sum.inl.inj hs
      exact ⟨rest, hrest, Or.inl (by rw [hcs, hc])⟩
    · rw [ht] at hs
      exact absurd hs (by simp)
  · rcases hs with hs | ⟨b0, hs, hlt, hch⟩
    · rw [ht] at hs
      exact absurd hs (by simp)
    · rw [ht] at hs
      have hbb : 16 * a + b = b0 := Sum.inr.inj hs
      have h46 : 16 * a + b = 46 := by
        have hc := congrArg Char.toNat hch
        rw [char_toNat_ofNat (Or.inl (by omega))] at hc
        have hdot : ('.' : Char).toNat = 46 := rfl
        omega
      have la := hexVal_le d1 a ha
      have lb := hexVal_le d2 b hb
      have ha2 : a = 2 := by omega
      have hb14 : b = 14 := by omega
      subst ha2
      subst hb14
      have hd1 : d1 = '2' := hexVal_inv_two d1 ha
      rcases hexVal_inv_fourteen d2 hb with hd2 | hd2
      · exact ⟨rest, hrest, Or.inr (Or.inl (by rw [hcs, hd1, hd2]))⟩
      · exact ⟨rest, hrest, Or.inr (Or.inr (by rw [hcs, hd1, hd2]))⟩

/-- If `decodeURIComponent` yields exactly `.`, the raw segment was one of
the single-dot forms. -/
theorem decodeURIComponent_dot (seg : String) (h : decodeURIComponent seg = some ".") :
    isSingleDotSeg seg = true := by
  unfold decodeURIComponent at h
  cases hts : pctTokens seg.data with
  | none =>
    simp only [hts] at h
    exact Option.noConfusion h
  | some ts =>
    simp only [hts] at h
    cases hcs : decodeTokens ts with
    | none =>
      simp only [hcs] at h
      exact Option.noConfusion h
    | some cs =>
      simp only [hcs, Option.some_inj] at h
      have hcs2 : cs = ['.'] := congrArg String.data h
      rcases decodeTokens_singleton ts '.' (hcs2 ▸ hcs) with hbig | ⟨t, hts2, hsm⟩
      · have hdot : ('.' : Char).toNat = 46 := rfl
        omega
      · rw [hts2] at hts
        obtain ⟨rest, hrest, hforms⟩ := pct_dot_atom seg.data t [] hts hsm
        have hrn : rest = [] := pctTokens_some_nil rest hrest
        subst hrn
        rcases hforms with hf | hf | hf <;> rw [string_eq_of_data hf] <;> decide

/-- If `decodeURIComponent` yields exactly `..`, the raw segment was one
of the double-dot forms. -/
theorem decodeURIComponent_dotdot (seg : String) (h : decodeURIComponent seg = some "..") :
    isDoubleDotSeg seg = true := by
  unfold decodeURIComponent at h
  cases hts : pctTokens seg.data with
  | none =>
    simp only [hts] at h
    exact Option.noConfusion h
  | some ts =>
    simp only [hts] at h
    cases hcs : decodeTokens ts with
    | none =>
      simp only [hcs] at h
      exact Option.noConfusion h
    | some cs =>
      simp only [hcs, Option.some_inj] at h
      have hcs2 : cs = ['.', '.'] := congrArg String.data h
      rcases decodeTokens_pair ts '.' '.' (hcs2 ▸ hcs) with hbig | hbig | ⟨t1, t2, hts2, hsm1, hsm2⟩
      · have hdot : ('.' : Char).toNat = 46 := rfl
        omega
      · have hdot : ('.' : Char).toNat = 46 := rfl
        omega
      · rw [hts2] at hts
        obtain ⟨rest, hrest, hforms1⟩ := pct_dot_atom seg.data t1 [t2] hts hsm1
        obtain ⟨rest2, hrest2, hforms2⟩ := pct_dot_atom rest t2 [] hrest hsm2
        have hrn : rest2 = [] := pctTokens_some_nil rest2 hrest2
        subst hrn
        rcases hforms1 with hf1 | hf1 | hf1 <;> rcases hforms2 with hf2 | hf2 | hf2 <;>
          · rw [hf2] at hf1
            rw [string_eq_of_data hf1]
            decide

/-! ### Builder invariant: canonical segments are never dot segments -/

/-- A canonical path segment: empty, or not a (possibly percent-encoded)
dot segment. -/
def goodSeg (s : String) : Prop :=
  s = "" ∨ (isSingleDotSeg s = false ∧ isDoubleDotSeg s = false)

theorem goodSeg_decode_not_dot (seg t : String) (hg : goodSeg seg)
    (hd : decodeURIComponent seg = some t) : ¬ t = "." ∧ ¬ t = ".." := by
  constructor
  · intro he
    subst he
    rcases hg with hg | ⟨hg1, _⟩
    · subst hg
      exact absurd hd (by decide)
    · rw [decodeURIComponent_dot seg hd] at hg1
      exact Bool.noConfusion hg1
  · intro he
    subst he
    rcases hg with hg | ⟨_, hg2⟩
    · subst hg
      exact absurd hd (by decide)
    · rw [decodeURIComponent_dotdot seg hd] at hg2
      exact Bool.noConfusion hg2

theorem buildSegs_good (cs : List Char) :
    ∀ (segs : List String) (buf : List Char),
      (∀ s ∈ segs, goodSeg s) → ∀ s ∈ buildSegs cs segs buf, goodSeg s := by
  induction cs with
  | nil =>
    intro segs buf hsegs s hs
    simp only [buildSegs] at hs
    by_cases hd : isDoubleDotSeg (String.mk buf) = true
    · rw [if_pos hd] at hs
      rcases List.mem_append.mp hs with hs | hs
      · exact hsegs s ((List.dropLast_sublist _).subset hs)
      · rw [List.mem_singleton.mp hs]
        exact Or.inl rfl
    · rw [if_neg hd] at hs
      by_cases h1 : isSingleDotSeg (String.mk buf) = true
      · rw [if_pos h1] at hs
        rcases List.mem_append.mp hs with hs | hs
        · exact hsegs s hs
        · rw [List.mem_singleton.mp hs]
          exact Or.inl rfl
      · rw [if_neg h1] at hs
        rcases List.mem_append.mp hs with hs | hs
        · exact hsegs s hs
        · rw [List.mem_singleton.mp hs]
          exact Or.inr ⟨by simpa using h1, by simpa using hd⟩
  | cons c rest ih =>
    intro segs buf hsegs s hs
    simp only [buildSegs] at hs
    by_cases hp : pathSep c = true
    · rw [if_pos hp] at hs
      by_cases hd : isDoubleDotSeg (String.mk buf) = true
      · rw [if_pos hd] at hs
        exact ih (shortenPath segs) []
          (fun s2 hs2 => hsegs s2 ((List.dropLast_sublist _).subset hs2)) s hs
      · rw [if_neg hd] at hs
        by_cases h1 : isSingleDotSeg (String.mk buf) = true
        · rw [if_pos h1] at hs
          exact ih segs [] hsegs s hs
        · rw [if_neg h1] at hs
          refine ih (segs ++ [String.mk buf]) [] ?_ s hs
          intro s2 hs2
          rcases List.mem_append.mp hs2 with h2 | h2
          · exact hsegs s2 h2
          · rw [List.mem_singleton.mp h2]
            exact Or.inr ⟨by simpa using h1, by simpa using hd⟩
    · rw [if_neg hp] at hs
      exact ih segs (buf ++ encodeChar pathEncodeSet c) hsegs s hs

theorem urlPathSegments_good (s : String) : ∀ seg ∈ urlPathSegments s, goodSeg seg := by
  intro seg hseg
  exact buildSegs_good _ [] [] (by simp) seg hseg

/-! ### From parse results to segment safety -/

theorem mapM_option_mem_inv {α β : Type} (f : α → Option β) (l : List α) (l2 : List β)
    (h : l.mapM f = some l2) : ∀ y ∈ l2, ∃ x ∈ l, f x = some y := by
  induction l generalizing l2 with
  | nil =>
    simp only [List.mapM_nil, pure, Option.some_inj] at h
    subst h
    simp
  | cons x xs ih =>
    rw [List.mapM_cons] at h
    cases hfx : f x with
    | none => rw [hfx] at h; exact absurd h (by simp)
    | some y =>
      rw [hfx] at h
      cases hxs : xs.mapM f with
      | none => rw [hxs] at h; exact absurd h (by simp)
      | some ys =>
        rw [hxs] at h
        simp only [Option.bind_eq_bind, Option.some_bind, pure, Option.some_inj] at h
        subst h
        intro z hz
        rcases List.mem_cons.mp hz with hz | hz
        · exact ⟨x, List.mem_cons_self x xs, hz ▸ hfx⟩
        · obtain ⟨x2, hx2, hfx2⟩ := ih ys hxs z hz
          exact ⟨x2, List.mem_cons_of_mem x hx2, hfx2⟩

theorem parseFront_arr_ok (l : List String) (parts : List String)
    (h : parseFront (.arr l) = .ok parts) :
    parts = l ∧ l.any isDotSegment = false := by
  have h' : (if (decide (l.head? ≠ some "") || l.any isDotSegment) = true
      then (Except.error ParseError.invalidPath : Except ParseError (List String))
      else Except.ok l) = Except.ok parts := h
  by_cases hc : (decide (l.head? ≠ some "") || l.any isDotSegment) = true
  · rw [if_pos hc] at h'
    exact absurd h' (by simp)
  · rw [if_neg hc] at h'
    simp only [Bool.or_eq_true, decide_eq_true_eq] at hc
    push_neg at hc
    refine ⟨(Except.ok.inj h').symm, ?_⟩
    exact Bool.not_eq_true _ ▸ (by simpa using hc.2)

/-- No segment of a successfully front-parsed reference is `.` or `..`. -/
theorem parseFront_no_dots (p : FilePath) (parts : List String)
    (h : parseFront p = .ok parts) :
    ∀ seg ∈ parts, ¬ seg = "." ∧ ¬ seg = ".." := by
  cases p with
  | str s =>
    obtain ⟨hsw, hdec⟩ := parseFront_str_ok s parts h
    intro seg hseg
    obtain ⟨raw, hraw, hrd⟩ := mapM_option_mem_inv decodeURIComponent _ _ hdec seg hseg
    rcases List.mem_cons.mp hraw with hr | hr
    · subst hr
      have : seg = "" := by
        have hd : decodeURIComponent "" = some "" := by decide
        rw [hd] at hrd
        exact (Option.some_inj.mp hrd).symm
      subst this
      exact ⟨by decide, by decide⟩
    · exact goodSeg_decode_not_dot raw seg (urlPathSegments_good s raw hr) hrd
  | arr l =>
    obtain ⟨hp, hnd⟩ := parseFront_arr_ok l parts h
    subst hp
    intro seg hseg
    have := (List.any_eq_false.mp hnd) seg hseg
    simp only [isDotSegment, Bool.or_eq_true, decide_eq_true_eq] at this
    push_neg at this
    exact this

theorem checkFilters_ok_inv (storage : FileSystemStorage) (parts : List String)
    (trail : Bool) (o : ParsedPath) (h : checkFilters storage parts trail = .ok o) :
    parts.any FORBIDDEN_CHARACTERS = false ∧
    (∀ pat, storage.ignorePattern = some pat → parts.any pat = false) ∧
    applyTrailingSlash storage parts trail = .ok o := by
  unfold checkFilters at h
  by_cases hf : parts.any FORBIDDEN_CHARACTERS = true
  · rw [if_pos hf] at h
    exact absurd h (by simp)
  · rw [if_neg hf] at h
    refine ⟨Bool.not_eq_true _ ▸ hf, ?_⟩
    cases hp : storage.ignorePattern with
    | none =>
      rw [hp] at h
      exact ⟨fun pat hpat => Option.noConfusion hpat, h⟩
    | some pat =>
      rw [hp] at h
      have h' : (if parts.any pat = true
          then (Except.error (ParseError.ignoredFile parts) : Except ParseError ParsedPath)
          else applyTrailingSlash storage parts trail) = Except.ok o := h
      by_cases hi : parts.any pat = true
      · rw [if_pos hi] at h'
        exact absurd h' (by simp)
      · rw [if_neg hi] at h'
        refine ⟨?_, h'⟩
        intro pat2 hpat2
        obtain rfl : pat = pat2 := Option.some_inj.mp hpat2
        exact Bool.not_eq_true _ ▸ hi

theorem applyTrailingSlash_ok_inv (storage : FileSystemStorage) (parts : List String)
    (trail : Bool) (o : ParsedPath) (h : applyTrailingSlash storage parts trail = .ok o) :
    o.pathParts = parts
    ∨ o.pathParts = parts.dropLast
    ∨ (o.pathParts = parts.dropLast ++ ["index.html"] ∧ storage.onDirectory = .serveIndex) := by
  unfold applyTrailingSlash at h
  cases trail with
  | false =>
    rw [if_neg (by simp)] at h
    rw [← Except.ok.inj h]
    exact Or.inl rfl
  | true =>
    rw [if_pos (by simp)] at h
    cases hod : storage.onDirectory with
    | off => rw [hod] at h; exact absurd h (by simp)
    | listFiles =>
      rw [hod] at h
      rw [← Except.ok.inj h]
      exact Or.inr (Or.inl rfl)
    | serveIndex =>
      rw [hod] at h
      rw [← Except.ok.inj h]
      exact Or.inr (Or.inr ⟨rfl, rfl⟩)

theorem parseBack_ok_inv (storage : FileSystemStorage) (parts : List String)
    (o : ParsedPath) (h : parseBack storage parts = .ok o) :
    parts.any FORBIDDEN_CHARACTERS = false ∧
    (∀ pat, storage.ignorePattern = some pat → parts.any pat = false) ∧
    (o.pathParts = parts
      ∨ o.pathParts = parts.dropLast
      ∨ (o.pathParts = parts.dropLast ++ ["index.html"] ∧ storage.onDirectory = .serveIndex)) := by
  unfold parseBack at h
  cases hidx : List.findIdx? isEmptySegment (parts.drop 1) with
  | none =>
    rw [hidx] at h
    obtain ⟨h1, h2, h3⟩ := checkFilters_ok_inv storage parts false o h
    exact ⟨h1, h2, applyTrailingSlash_ok_inv storage parts false o h3⟩
  | some i =>
    rw [hidx] at h
    have h' : (if i + 1 ≠ parts.length - 1
        then (Except.error (ParseError.consecutiveSlashes parts) : Except ParseError ParsedPath)
        else checkFilters storage parts true) = Except.ok o := h
    by_cases hlen : i + 1 ≠ parts.length - 1
    · rw [if_pos hlen] at h'
      exact absurd h' (by simp)
    · rw [if_neg hlen] at h'
      obtain ⟨h1, h2, h3⟩ := checkFilters_ok_inv storage parts true o h'
      exact ⟨h1, h2, applyTrailingSlash_ok_inv storage parts true o h3⟩

/-- The parse-level path-safety statement: every segment of a successful
parse is clean, except that `serve-index`'s appended `index.html` is not
checked against the ignore pattern. -/
theorem parsePath_segments_props (storage : FileSystemStorage) (p : FilePath)
    (o : ParsedPath) (h : storage.parsePath p = .ok o) :
    ∀ seg ∈ o.pathParts,
      ¬ seg = "." ∧ ¬ seg = ".." ∧ FORBIDDEN_CHARACTERS seg = false ∧
      (∀ pat, storage.ignorePattern = some pat →
        pat seg = false ∨ (storage.onDirectory = .serveIndex ∧ seg = "index.html")) := by
  unfold FileSystemStorage.parsePath at h
  cases hf : parseFront p with
  | error e => rw [hf] at h; exact absurd h (by simp)
  | ok parts =>
    rw [hf] at h
    obtain ⟨hforb, hign, hshape⟩ := parseBack_ok_inv storage parts o h
    have hdots := parseFront_no_dots p parts hf
    have hmem : ∀ seg ∈ o.pathParts,
        seg ∈ parts ∨ (storage.onDirectory = .serveIndex ∧ seg = "index.html") := by
      intro seg hseg
      rcases hshape with hs | hs | ⟨hs, hod⟩
      · exact Or.inl (hs ▸ hseg)
      · exact Or.inl ((List.dropLast_sublist _).subset (hs ▸ hseg))
      · rw [hs] at hseg
        rcases List.mem_append.mp hseg with h2 | h2
        · exact Or.inl ((List.dropLast_sublist _).subset h2)
        · exact Or.inr ⟨hod, List.mem_singleton.mp h2⟩
    intro seg hseg
    rcases hmem seg hseg with hm | ⟨hod, hm⟩
    · refine ⟨(hdots seg hm).1, (hdots seg hm).2,
        Bool.not_eq_true _ ▸ List.any_eq_false.mp hforb seg hm, ?_⟩
      intro pat hpat
      exact Or.inl (Bool.not_eq_true _ ▸ List.any_eq_false.mp (hign pat hpat) seg hm)
    · subst hm
      exact ⟨by decide, by decide, by decide, fun pat hpat => Or.inr ⟨hod, rfl⟩⟩

/-! ## C1: path safety of `open` -/

theorem openMapped_ok_pathParts (env : FSEnv) (requestHeaders : StorageRequestHeaders)
    (parts : List String) (rp : String) (mapping : RegexpContentEncodingMapping)
    (info : StorageInfo) (evs : List FsEvent)
    (h : openMapped env requestHeaders parts rp mapping = (.ok info, evs)) :
    info.pathParts = parts := by
  rcases htr : tryEncodings env mapping.matcher rp
      (acceptEncodings requestHeaders.acceptEncoding
        mapping.encodingPreferences mapping.identityEncodingPreference) with ⟨r, evs2⟩
  simp only [openMapped, htr] at h
  cases r with
  | found name encodedPath fd stats =>
    simp only [Prod.mk.injEq] at h
    rw [← Except.ok.inj h.1]
  | isDirFd fd => simp at h
  | exhausted => simp at h

theorem openUnmapped_ok_pathParts (env : FSEnv) (parts : List String) (rp : String)
    (trail : Bool) (info : StorageInfo) (evs : List FsEvent)
    (h : openUnmapped env parts rp trail = (.ok info, evs)) :
    info.pathParts = parts := by
  cases ho : env.openFile rp with
  | none => simp [openUnmapped, ho] at h
  | some fd =>
    by_cases hdir : (env.fstat fd).isDirectory
    · cases trail with
      | false =>
        simp only [openUnmapped, ho] at h
        rw [hdir] at h
        simp at h
      | true =>
        simp only [openUnmapped, ho] at h
        rw [hdir] at h
        simp only [Bool.not_true, Bool.false_eq_true, if_false, if_true,
          Prod.mk.injEq] at h
        rw [← Except.ok.inj h.1]
    · cases trail with
      | false =>
        simp only [openUnmapped, ho] at h
        simp only [hdir] at h
        simp only [Bool.false_eq_true, if_false, Prod.mk.injEq] at h
        rw [← Except.ok.inj h.1]
      | true =>
        simp only [openUnmapped, ho] at h
        simp only [hdir] at h
        simp at h

/-- A successful `open` returns exactly the path parts of the successful
parse. -/
theorem open_ok_pathParts (storage : FileSystemStorage) (env : FSEnv)
    (requestHeaders : StorageRequestHeaders) (p : FilePath) (info : StorageInfo)
    (evs : List FsEvent)
    (h : storage.open env requestHeaders p = (.ok info, evs)) :
    ∃ parsed, storage.parsePath p = .ok parsed ∧ info.pathParts = parsed.pathParts := by
  cases hp : storage.parsePath p with
  | error e2 => simp [FileSystemStorage.open, hp] at h
  | ok parsed =>
    refine ⟨parsed, rfl, ?_⟩
    simp only [FileSystemStorage.open, hp] at h
    cases hsel : selectedEncodingMapping storage (joinPath storage.root parsed.pathParts)
        parsed.haveTrailingSlash with
    | some mapping =>
      simp only [openWithParsed, hsel] at h
      exact openMapped_ok_pathParts env requestHeaders parsed.pathParts
        (joinPath storage.root parsed.pathParts) mapping info evs h
    | none =>
      simp only [openWithParsed, hsel] at h
      exact openUnmapped_ok_pathParts env parsed.pathParts
        (joinPath storage.root parsed.pathParts) parsed.haveTrailingSlash info evs h

/-- A storage in `serve-index` mode whose ignore pattern matches exactly
the string `index.html`. -/
def ixStorage : FileSystemStorage :=
  { root := "/fixtures"
  , contentEncodingMappings := none
  , ignorePattern := some (fun s =>
      s.data = ['i', 'n', 'd', 'e', 'x', '.', 'h', 't', 'm', 'l'])
  , onDirectory := .serveIndex }

/-- An environment where every path opens as descriptor 5 and stats as a
regular file. -/
def ixEnv : FSEnv := ⟨fun _ => some 5, fun _ => ⟨false, 0, 0⟩⟩

/-- **C1 counterexample** — with `serve-index` and an ignore pattern
matching `index.html`, opening `/d/` succeeds although the final segment
of the returned path parts matches the configured ignore pattern:
`index.html` is appended *after* the ignore check runs. -/
theorem open_ignored_segment_counterexample :
    ∃ info evs, ixStorage.open ixEnv ⟨none⟩ (.str "/d/") = (Except.ok info, evs)
      ∧ ∃ pat, ixStorage.ignorePattern = some pat
      ∧ ∃ seg ∈ info.pathParts, pat seg = true := by
  refine ⟨{ pathParts := ["", "d", "index.html"]
          , resolvedPath := "/fixtures/d/index.html"
          , fd := 5, stats := ⟨false, 0, 0⟩, fileName := "index.html"
          , mtimeMs := some 0, size := some 0, contentEncoding := some "identity" },
    [.opened 5], by decide,
    (fun s => s.data = ['i', 'n', 'd', 'e', 'x', '.', 'h', 't', 'm', 'l']), rfl,
    "index.html", by decide, by decide⟩

/-- **C1** (amended) — Path safety: for every reference for which
`FileSystemStorage.open` succeeds, every segment of the resulting path
parts is neither `.` nor `..` and contains none of the forbidden
characters; when an `ignorePattern` is configured, no segment matches it,
except possibly a final `index.html` segment appended by `serve-index`
mode, which is added after the ignore check. -/
theorem open_pathParts_safe (storage : FileSystemStorage) (env : FSEnv)
    (requestHeaders : StorageRequestHeaders) (p : FilePath) (info : StorageInfo)
    (evs : List FsEvent)
    (h : storage.open env requestHeaders p = (.ok info, evs)) :
    ∀ seg ∈ info.pathParts,
      ¬ seg = "." ∧ ¬ seg = ".." ∧ FORBIDDEN_CHARACTERS seg = false ∧
      (∀ pat, storage.ignorePattern = some pat →
        pat seg = false ∨ (storage.onDirectory = .serveIndex ∧ seg = "index.html")) := by
  obtain ⟨parsed, hp, hpp⟩ := open_ok_pathParts storage env requestHeaders p info evs h
  rw [hpp]
  exact parsePath_segments_props storage p parsed hp

/-- The `StorageInfo` returned for `/todo.txt` over `fileEnv`. -/
def safeInfo : StorageInfo :=
  { pathParts := ["", "todo.txt"], resolvedPath := "/fixtures/todo.txt"
  , fd := 3, stats := ⟨false, 100, 5⟩, fileName := "todo.txt"
  , mtimeMs := some 100, size := some 5, contentEncoding := some "identity" }

/-- **C1 witness** — the default storage serving `/todo.txt` succeeds and
all its segments satisfy the amended safety property. -/
theorem open_pathParts_safe_witness :
    defaultStorage.open fileEnv ⟨none⟩ (.str "/todo.txt") = (.ok safeInfo, [.opened 3]) ∧
    ∀ seg ∈ safeInfo.pathParts,
      ¬ seg = "." ∧ ¬ seg = ".." ∧ FORBIDDEN_CHARACTERS seg = false ∧
      (∀ pat, defaultStorage.ignorePattern = some pat →
        pat seg = false ∨ (defaultStorage.onDirectory = .serveIndex ∧ seg = "index.html")) :=
  ⟨by decide, open_pathParts_safe defaultStorage fileEnv ⟨none⟩ (.str "/todo.txt")
    safeInfo [.opened 3] (by decide)⟩

end SendStream
